import Mathlib

/-!
Verification of the profile-driven segmentation engine of the `segments`
package against its specification.

Strings are modelled as lists of Unicode code points (`Str := List Nat`),
since the Python code indexes and slices strings code point by code point.
External collaborators (the `unicodedata` normalization table, the `regex`
grapheme-cluster matcher and the Unicode category table) are passed in as
explicit function parameters; every concrete theorem instantiates them with
functions that agree with the real tables on the code points involved.
-/

namespace Segments

/-- A string, as the list of its Unicode code points. -/
abbrev Str := List Nat

/-! ## tree.py: the grapheme trie

`TreeNode` mirrors `tree.TreeNode`: a `sentinel` flag and a dictionary of
children keyed by single code points.  The dictionary is modelled as an
association list; only lookup and insert-or-replace are used by the code. -/

inductive TreeNode : Type where
  | mk : Bool → List (Nat × TreeNode) → TreeNode

/-- The `sentinel` attribute of a node. -/
def TreeNode.sentinel : TreeNode → Bool
  | .mk s _ => s

/-- The `children` attribute of a node. -/
def TreeNode.children : TreeNode → List (Nat × TreeNode)
  | .mk _ c => c

/-- `children.get(c)`: dictionary lookup. -/
def lookupChild : List (Nat × TreeNode) → Nat → Option TreeNode
  | [], _ => none
  | (k, v) :: rest, c => if k = c then some v else lookupChild rest c

/-- Dictionary store `children[c] = t` (replace in place or append). -/
def setChild : List (Nat × TreeNode) → Nat → TreeNode → List (Nat × TreeNode)
  | [], c, t => [(c, t)]
  | (k, v) :: rest, c, t =>
      if k = c then (k, t) :: rest else (k, v) :: setChild rest c t

/-- `Tree.__init__` helper `_multigraph`: walk down the trie along the code
points of `line`, creating nodes on demand (`children.setdefault`), and mark
the final node as a sentinel. -/
def addMultigraph : TreeNode → Str → TreeNode
  | .mk _ ch, [] => .mk true ch
  | .mk s ch, c :: rest =>
      let child := (lookupChild ch c).getD (.mk false [])
      .mk s (setChild ch c (addMultigraph child rest))

/-- `Tree`: holds the root node. -/
structure Tree : Type where
  root : TreeNode

/-- `Tree.__init__(graphemes)`: the root is a sentinel node with no label and
each grapheme is added as a multigraph. -/
def Tree.ofGraphemes (gs : List Str) : Tree :=
  ⟨gs.foldl addMultigraph (.mk true [])⟩

/-- The body of the `while curr < len(line)` loop of `Tree._parse`.
`sub` is the recursive call `self._parse(root, ·, ·)`; `node` is the current
node, `pre` the code points consumed so far in this walk (`line[:curr]`),
`rest` the remainder (`line[curr:]`), `idx` the `idx` argument, and
`(best, cidx)` the current `parse` and `cidx` loop variables. -/
def walkF (sub : Str → Nat → List Str × Nat) :
    TreeNode → Str → Str → Nat → List Str → Nat → List Str × Nat
  | _, _, [], _, best, cidx => (best, cidx)
  | node, pre, c :: rest2, idx, best, cidx =>
      match lookupChild node.children c with
      | none => (best, cidx)
      | some nd =>
          let pre2 := pre ++ [c]
          if nd.sentinel then
            let s := sub rest2 (idx + pre2.length)
            walkF sub nd pre2 rest2 idx (pre2 :: s.1) s.2
          else
            walkF sub nd pre2 rest2 idx best cidx

/-- `Tree._parse(root, line, idx)`, with a structural fuel argument so that
the definition computes by kernel reduction.  The fuel only bounds the
recursion depth of `_parse`; `tparse` below always supplies enough. -/
def tparseF : Nat → TreeNode → Str → Nat → List Str × Nat
  | 0, _, _, idx => ([], idx)
  | fuel + 1, root, line, idx =>
      match line with
      | [] => ([], idx)
      | _ :: _ =>
          let r := walkF (fun l i => tparseF fuel root l i) root [] line idx [] idx
          if r.1.isEmpty then ([], idx) else r

/-- `Tree._parse(root, line, idx)`.  Each recursive call strictly shortens
the line, so `line.length + 1` units of fuel always suffice. -/
def tparse (root : TreeNode) (line : Str) (idx : Nat) : List Str × Nat :=
  tparseF (line.length + 1) root line idx

/-- The `while rem:` loop of `Tree.parse`: chop one code point off, append
the error replacement for it, re-parse the remainder.  Again fueled; every
iteration consumes at least the chopped code point. -/
def parseLoopF (root : TreeNode) (err : Str → Str) :
    Nat → List Str → Str → List Str
  | 0, res, _ => res
  | _ + 1, res, [] => res
  | fuel + 1, res, c :: rem2 =>
      let r := tparse root rem2 0
      parseLoopF root err fuel (res ++ [err [c]] ++ r.1) (rem2.drop r.2)

/-- `Tree.parse(line, error)`: parse a maximal prefix, then alternate error
replacements (one code point each) with further parses. -/
def Tree.parse (t : Tree) (line : Str) (err : Str → Str) : List Str :=
  let r := tparse t.root line 0
  parseLoopF t.root err (line.length + 1) r.1 (line.drop r.2)

/-- A parse token tagged by its origin: `hit g` is a matched grapheme `g`,
`miss c` marks a position where `Tree.parse` invoked the error policy on the
single code point `c`. -/
inductive Tok : Type where
  | hit (g : Str)
  | miss (c : Nat)

/-- Render a tagged token through an error policy: matched graphemes are kept
verbatim, error positions are replaced by the policy output on the one code
point that was dropped. -/
def renderTok (err : Str → Str) : Tok → Str
  | .hit g => g
  | .miss c => err [c]

/-- The `while rem:` loop of `Tree.parse`, instrumented to record error
positions instead of applying the error policy. -/
def parseTagLoopF (root : TreeNode) : Nat → List Tok → Str → List Tok
  | 0, res, _ => res
  | _ + 1, res, [] => res
  | fuel + 1, res, c :: rem2 =>
      let r := tparse root rem2 0
      parseTagLoopF root fuel (res ++ [Tok.miss c] ++ r.1.map Tok.hit) (rem2.drop r.2)

/-- `Tree.parse`, instrumented: the same computation with tagged tokens. -/
def Tree.parseTag (t : Tree) (line : Str) : List Tok :=
  let r := tparse t.root line 0
  parseTagLoopF t.root (line.length + 1) (r.1.map Tok.hit) (line.drop r.2)

/-! ### Coverage invariant for `_parse` -/

theorem take_append_add (a b : Str) (k : Nat) :
    (a ++ b).take (a.length + k) = a ++ b.take k := by
  induction a with
  | nil => simp
  | cons h t ih =>
      have hl : (h :: t).length + k = (t.length + k) + 1 := by
        simp [List.length_cons]; omega
      rw [List.cons_append, hl, List.take_succ_cons, ih, List.cons_append]

/-- The result contract of `Tree._parse`: `_parse(root, line, idx)` returns
an index between `idx` and `idx + len(line)`, and the concatenation of the
returned graphemes is exactly the consumed prefix of `line`. -/
def Qspec (line : Str) (idx : Nat) (r : List Str × Nat) : Prop :=
  idx ≤ r.2 ∧ r.2 - idx ≤ line.length ∧ r.1.flatten = line.take (r.2 - idx)

theorem renderTok_hit (err : Str → Str) (l : List Str) :
    (l.map Tok.hit).map (renderTok err) = l := by
  rw [List.map_map]
  have h : renderTok err ∘ Tok.hit = id := funext fun g => rfl
  rw [h, List.map_id]

theorem walkF_Q (sub : Str → Nat → List Str × Nat)
    (hsub : ∀ l i, Qspec l i (sub l i)) :
    ∀ (rest : Str) (node : TreeNode) (pre : Str) (idx : Nat)
      (best : List Str) (cidx : Nat),
      (best ≠ [] → idx ≤ cidx ∧ cidx - idx ≤ (pre ++ rest).length ∧
        best.flatten = (pre ++ rest).take (cidx - idx)) →
      ((walkF sub node pre rest idx best cidx).1 ≠ [] →
        idx ≤ (walkF sub node pre rest idx best cidx).2 ∧
        (walkF sub node pre rest idx best cidx).2 - idx ≤ (pre ++ rest).length ∧
        (walkF sub node pre rest idx best cidx).1.flatten
          = (pre ++ rest).take ((walkF sub node pre rest idx best cidx).2 - idx)) := by
  intro rest
  induction rest with
  | nil =>
      intro node pre idx best cidx hbest
      simpa [walkF] using hbest
  | cons c rest2 ih =>
      intro node pre idx best cidx hbest
      show ((walkF sub node pre (c :: rest2) idx best cidx).1 ≠ [] → _)
      rw [walkF]
      cases hch : lookupChild node.children c with
      | none => simpa using hbest
      | some nd =>
          have happ : pre ++ c :: rest2 = (pre ++ [c]) ++ rest2 := by simp
          cases hs : nd.sentinel with
          | false =>
              simp only [hs, if_false, Bool.false_eq_true]
              rw [happ]
              exact ih nd (pre ++ [c]) idx best cidx (by rw [← happ]; exact hbest)
          | true =>
              simp only [hs, if_true]
              rw [happ]
              apply ih nd (pre ++ [c]) idx
              intro _
              obtain ⟨h1, h2, h3⟩ := hsub rest2 (idx + (pre ++ [c]).length)
              set s := sub rest2 (idx + (pre ++ [c]).length) with hsdef
              have hL : ((pre ++ [c]) ++ rest2).length = (pre ++ [c]).length + rest2.length := by
                simp
                omega
              refine ⟨by omega, by omega, ?_⟩
              have hlen : s.2 - idx = (pre ++ [c]).length + (s.2 - idx - (pre ++ [c]).length) := by
                omega
              rw [List.flatten_cons, hlen, take_append_add, h3]
              congr 2
              omega

theorem tparseF_Q :
    ∀ (fuel : Nat) (root : TreeNode) (line : Str) (idx : Nat),
      Qspec line idx (tparseF fuel root line idx) := by
  intro fuel
  induction fuel with
  | zero => intro root line idx; exact ⟨Nat.le_refl _, by simp [tparseF], by simp [tparseF]⟩
  | succ fuel ih =>
      intro root line idx
      cases line with
      | nil => exact ⟨Nat.le_refl _, by simp [tparseF], by simp [tparseF]⟩
      | cons c rest =>
          rw [show tparseF (fuel + 1) root (c :: rest) idx
              = (let r := walkF (fun l i => tparseF fuel root l i) root [] (c :: rest) idx [] idx
                 if r.1.isEmpty then ([], idx) else r) from rfl]
          set r := walkF (fun l i => tparseF fuel root l i) root [] (c :: rest) idx [] idx with hr
          by_cases hemp : r.1.isEmpty
          · simp only [hemp, if_true]
            exact ⟨Nat.le_refl _, by simp, by simp⟩
          · simp only [hemp, if_false, Bool.false_eq_true]
            have hwq := walkF_Q (fun l i => tparseF fuel root l i) (fun l i => ih root l i)
              (c :: rest) root [] idx [] idx (by intro h; exact absurd rfl h)
            have hne : r.1 ≠ [] := by
              intro h; exact hemp (by simp [h])
            obtain ⟨ha, hb, hc⟩ := hwq hne
            exact ⟨ha, by simpa using hb, by simpa using hc⟩

theorem tparse_Q (root : TreeNode) (line : Str) (idx : Nat) :
    Qspec line idx (tparse root line idx) :=
  tparseF_Q (line.length + 1) root line idx

/-! ### `Tree.parse` versus its instrumented form -/

theorem parseLoopF_render (root : TreeNode) (err : Str → Str) :
    ∀ (fuel : Nat) (A : List Tok) (rem : Str),
      parseLoopF root err fuel (A.map (renderTok err)) rem
        = (parseTagLoopF root fuel A rem).map (renderTok err) := by
  intro fuel
  induction fuel with
  | zero => intro A rem; rfl
  | succ fuel ih =>
      intro A rem
      cases rem with
      | nil => rfl
      | cons c rem2 =>
          have hacc :
              (A ++ [Tok.miss c] ++ (tparse root rem2 0).1.map Tok.hit).map (renderTok err)
                = A.map (renderTok err) ++ [err [c]] ++ (tparse root rem2 0).1 := by
            simp only [List.map_append, renderTok_hit]
            rfl
          show parseLoopF root err fuel
              (A.map (renderTok err) ++ [err [c]] ++ (tparse root rem2 0).1)
              (rem2.drop (tparse root rem2 0).2)
            = (parseTagLoopF root fuel (A ++ [Tok.miss c] ++ (tparse root rem2 0).1.map Tok.hit)
                (rem2.drop (tparse root rem2 0).2)).map (renderTok err)
          rw [← hacc, ih]

theorem parseTagLoopF_cover (root : TreeNode) :
    ∀ (fuel : Nat) (rem : Str) (A : List Tok), rem.length ≤ fuel →
      ((parseTagLoopF root fuel A rem).map (renderTok (fun s => s))).flatten
        = ((A.map (renderTok (fun s => s))).flatten) ++ rem := by
  intro fuel
  induction fuel with
  | zero =>
      intro rem A hlen
      have hnil : rem = [] := List.length_eq_zero.mp (Nat.le_zero.mp hlen)
      subst hnil
      simp [parseTagLoopF]
  | succ fuel ih =>
      intro rem A hlen
      cases rem with
      | nil => simp [parseTagLoopF]
      | cons c rem2 =>
          obtain ⟨hq1, hq2, hq3⟩ := tparse_Q root rem2 0
          have hdrop : (rem2.drop (tparse root rem2 0).2).length ≤ fuel := by
            simp only [List.length_cons] at hlen
            simp only [List.length_drop]
            omega
          show ((parseTagLoopF root fuel
              (A ++ [Tok.miss c] ++ (tparse root rem2 0).1.map Tok.hit)
              (rem2.drop (tparse root rem2 0).2)).map (renderTok (fun s => s))).flatten
            = ((A.map (renderTok (fun s => s))).flatten) ++ (c :: rem2)
          rw [ih _ _ hdrop]
          simp only [List.map_append, List.flatten_append, renderTok_hit]
          rw [hq3]
          simp only [Nat.sub_zero]
          simp [renderTok, List.append_assoc, List.take_append_drop]

/-- C1: for every grapheme inventory and word, `Tree.parse` output is the
tagged parse rendered through the error policy, where every error position
stands for exactly one code point of the word; rendering the tagged parse
with the identity policy (keeping the dropped code point itself) reconstructs
the word exactly, and in particular with the identity error policy the
concatenation of the output tokens is the word itself. -/
theorem c1_parse_coverage (gs : List Str) (line : Str) (err : Str → Str) :
    Tree.parse (Tree.ofGraphemes gs) line err
        = (Tree.parseTag (Tree.ofGraphemes gs) line).map (renderTok err) ∧
      ((Tree.parseTag (Tree.ofGraphemes gs) line).map
        (renderTok (fun s => s))).flatten = line ∧
      (Tree.parse (Tree.ofGraphemes gs) line (fun s => s)).flatten = line := by
  set t := Tree.ofGraphemes gs with ht
  have hmap : ∀ e : Str → Str,
      Tree.parse t line e = (Tree.parseTag t line).map (renderTok e) := by
    intro e
    show parseLoopF t.root e (line.length + 1) (tparse t.root line 0).1
          (line.drop (tparse t.root line 0).2)
        = (parseTagLoopF t.root (line.length + 1)
            ((tparse t.root line 0).1.map Tok.hit)
            (line.drop (tparse t.root line 0).2)).map (renderTok e)
    rw [← parseLoopF_render, renderTok_hit]
  have hcover :
      ((Tree.parseTag t line).map (renderTok (fun s => s))).flatten = line := by
    show ((parseTagLoopF t.root (line.length + 1)
          ((tparse t.root line 0).1.map Tok.hit)
          (line.drop (tparse t.root line 0).2)).map
            (renderTok (fun s => s))).flatten = line
    obtain ⟨hq1, hq2, hq3⟩ := tparse_Q t.root line 0
    rw [parseTagLoopF_cover t.root (line.length + 1) _ _
      (by simp only [List.length_drop]; omega)]
    rw [renderTok_hit, hq3]
    simp only [Nat.sub_zero]
    exact List.take_append_drop _ _
  exact ⟨hmap err, hcover, by rw [hmap (fun s => s)]; exact hcover⟩

/-! ### The last-found-terminal rule of `_parse` -/

theorem drop_append_add (a b : Str) (k : Nat) :
    (a ++ b).drop (a.length + k) = b.drop k := by
  induction a with
  | nil => simp
  | cons h t ih =>
      have hl : (h :: t).length + k = (t.length + k) + 1 := by
        simp [List.length_cons]; omega
      rw [List.cons_append, hl, List.drop_succ_cons, ih]

/-- The walk of `Tree._parse`, instrumented to record only the depth (the
value of `curr`) at which the last sentinel node was reached: the same
monotonically advancing loop over the children dictionaries, with `best`
playing the role of the repeatedly overwritten best match. -/
def walkLast : TreeNode → Str → Nat → Option Nat → Option Nat
  | _, [], _, best => best
  | node, c :: rest, depth, best =>
      match lookupChild node.children c with
      | none => best
      | some nd =>
          walkLast nd rest (depth + 1)
            (if nd.sentinel then some (depth + 1) else best)

/-- Threading an initial best depth through the walk only matters when the
walk finds no sentinel of its own. -/
theorem walkLast_best :
    ∀ (rest : Str) (node : TreeNode) (depth : Nat) (b : Option Nat),
      walkLast node rest depth b
        = match walkLast node rest depth none with
          | none => b
          | some d => some d := by
  intro rest
  induction rest with
  | nil => intro node depth b; rfl
  | cons c rest2 ih =>
      intro node depth b
      have hstep : ∀ b0 : Option Nat, walkLast node (c :: rest2) depth b0
          = match lookupChild node.children c with
            | none => b0
            | some nd =>
                walkLast nd rest2 (depth + 1)
                  (if nd.sentinel then some (depth + 1) else b0) := fun b0 => rfl
      rw [hstep b, hstep none]
      cases hch : lookupChild node.children c with
      | none => simp only [hch]
      | some nd =>
          simp only [hch]
          cases hs : nd.sentinel with
          | true =>
              simp only [hs, if_true]
              rw [ih nd (depth + 1) (some (depth + 1))]
              cases hq : walkLast nd rest2 (depth + 1) none with
              | none => rfl
              | some d => rfl
          | false =>
              simp only [hs, Bool.false_eq_true, if_false]
              exact ih nd (depth + 1) b

/-- A sentinel depth found by the walk lies strictly beyond the starting
depth. -/
theorem walkLast_pos :
    ∀ (rest : Str) (node : TreeNode) (depth : Nat) (b : Option Nat) (d : Nat),
      walkLast node rest depth b = some d → b = some d ∨ depth < d := by
  intro rest
  induction rest with
  | nil => intro node depth b d h; exact Or.inl h
  | cons c rest2 ih =>
      intro node depth b d h
      rw [show walkLast node (c :: rest2) depth b
          = match lookupChild node.children c with
            | none => b
            | some nd =>
                walkLast nd rest2 (depth + 1)
                  (if nd.sentinel then some (depth + 1) else b) from rfl] at h
      cases hch : lookupChild node.children c with
      | none => rw [hch] at h; exact Or.inl h
      | some nd =>
          rw [hch] at h
          have h3 : walkLast nd rest2 (depth + 1)
              (if nd.sentinel then some (depth + 1) else b) = some d := h
          cases hs : nd.sentinel with
          | true =>
              have hif : (if nd.sentinel then some (depth + 1) else b)
                  = some (depth + 1) := by simp [hs]
              rw [hif] at h3
              rcases ih nd (depth + 1) (some (depth + 1)) d h3 with h1 | h2
              · refine Or.inr ?_
                cases h1
                omega
              · exact Or.inr (by omega)
          | false =>
              have hif : (if nd.sentinel then some (depth + 1) else b) = b := by
                simp [hs]
              rw [hif] at h3
              rcases ih nd (depth + 1) b d h3 with h1 | h2
              · exact Or.inl h1
              · exact Or.inr (by omega)

/-- The walk of `_parse` only consults the recursive parser on proper
suffixes; two subparsers agreeing on all lines shorter than a bound give the
same walk. -/
theorem walkF_congr (sub1 sub2 : Str → Nat → List Str × Nat) (n : Nat)
    (h : ∀ l i, l.length < n → sub1 l i = sub2 l i) :
    ∀ (rest : Str) (node : TreeNode) (pre : Str) (idx : Nat)
      (best : List Str) (cidx : Nat), rest.length ≤ n →
      walkF sub1 node pre rest idx best cidx
        = walkF sub2 node pre rest idx best cidx := by
  intro rest
  induction rest with
  | nil => intro node pre idx best cidx _; rfl
  | cons c rest2 ih =>
      intro node pre idx best cidx hlen
      cases hch : lookupChild node.children c with
      | none =>
          rw [show walkF sub1 node pre (c :: rest2) idx best cidx
              = (best, cidx) from by simp only [walkF]; rw [hch],
            show walkF sub2 node pre (c :: rest2) idx best cidx
              = (best, cidx) from by simp only [walkF]; rw [hch]]
      | some nd =>
          have hstep : ∀ sub : Str → Nat → List Str × Nat,
              walkF sub node pre (c :: rest2) idx best cidx
                = if nd.sentinel then
                    walkF sub nd (pre ++ [c]) rest2 idx
                      ((pre ++ [c]) :: (sub rest2 (idx + (pre ++ [c]).length)).1)
                      (sub rest2 (idx + (pre ++ [c]).length)).2
                  else walkF sub nd (pre ++ [c]) rest2 idx best cidx := by
            intro sub
            simp only [walkF]
            rw [hch]
          rw [hstep sub1, hstep sub2]
          have hrest : rest2.length ≤ n := by
            simp only [List.length_cons] at hlen
            omega
          have hsub : sub1 rest2 (idx + (pre ++ [c]).length)
              = sub2 rest2 (idx + (pre ++ [c]).length) := by
            apply h
            simp only [List.length_cons] at hlen
            omega
          cases hs : nd.sentinel with
          | true =>
              simp only [hs, if_true]
              rw [hsub]
              exact ih nd (pre ++ [c]) idx _ _ hrest
          | false =>
              simp only [hs, Bool.false_eq_true, if_false]
              exact ih nd (pre ++ [c]) idx best cidx hrest

/-- `_parse` does not depend on the fuel, as long as it exceeds the line
length. -/
theorem tparseF_fuel :
    ∀ (f1 f2 : Nat) (root : TreeNode) (line : Str) (idx : Nat),
      line.length < f1 → line.length < f2 →
      tparseF f1 root line idx = tparseF f2 root line idx := by
  intro f1
  induction f1 with
  | zero => intro f2 root line idx h1 _; exact absurd h1 (Nat.not_lt_zero _)
  | succ a ih =>
      intro f2 root line idx h1 h2
      cases f2 with
      | zero => exact absurd h2 (Nat.not_lt_zero _)
      | succ b =>
          cases line with
          | nil => rfl
          | cons c rest =>
              have hcong := walkF_congr (fun l i => tparseF a root l i)
                (fun l i => tparseF b root l i) (c :: rest).length
                (fun l i hl => ih b root l i
                  (by simp only [List.length_cons] at h1 hl; omega)
                  (by simp only [List.length_cons] at h2 hl; omega))
                (c :: rest) root [] idx [] idx (Nat.le_refl _)
              show (if (walkF (fun l i => tparseF a root l i) root []
                      (c :: rest) idx [] idx).1.isEmpty = true then (([] : List Str), idx)
                    else walkF (fun l i => tparseF a root l i) root []
                      (c :: rest) idx [] idx)
                  = (if (walkF (fun l i => tparseF b root l i) root []
                      (c :: rest) idx [] idx).1.isEmpty = true then (([] : List Str), idx)
                    else walkF (fun l i => tparseF b root l i) root []
                      (c :: rest) idx [] idx)
              rw [hcong]

/-- The walk of `_parse` returns the untouched best when it reaches no
sentinel, and otherwise the combination headed by the prefix consumed up to
the last sentinel it reached, followed by whatever the recursive subparse of
the remainder returned. -/
theorem walkF_lastSpec (sub : Str → Nat → List Str × Nat) :
    ∀ (rest : Str) (node : TreeNode) (pre : Str) (idx : Nat)
      (best : List Str) (cidx : Nat),
      walkF sub node pre rest idx best cidx
        = match walkLast node rest pre.length none with
          | none => (best, cidx)
          | some d =>
              (((pre ++ rest).take d) :: (sub ((pre ++ rest).drop d) (idx + d)).1,
               (sub ((pre ++ rest).drop d) (idx + d)).2) := by
  intro rest
  induction rest with
  | nil => intro node pre idx best cidx; rfl
  | cons c rest2 ih =>
      intro node pre idx best cidx
      have hlast : walkLast node (c :: rest2) pre.length none
          = match lookupChild node.children c with
            | none => none
            | some nd =>
                walkLast nd rest2 (pre.length + 1)
                  (if nd.sentinel then some (pre.length + 1) else none) := rfl
      cases hch : lookupChild node.children c with
      | none =>
          rw [show walkF sub node pre (c :: rest2) idx best cidx
              = (best, cidx) from by simp only [walkF]; rw [hch]]
          rw [hlast, hch]
      | some nd =>
          have hstep : walkF sub node pre (c :: rest2) idx best cidx
              = if nd.sentinel then
                  walkF sub nd (pre ++ [c]) rest2 idx
                    ((pre ++ [c]) :: (sub rest2 (idx + (pre ++ [c]).length)).1)
                    (sub rest2 (idx + (pre ++ [c]).length)).2
                else walkF sub nd (pre ++ [c]) rest2 idx best cidx := by
            simp only [walkF]
            rw [hch]
          have hlast2 : walkLast node (c :: rest2) pre.length none
              = walkLast nd rest2 (pre.length + 1)
                  (if nd.sentinel then some (pre.length + 1) else none) := by
            rw [hlast, hch]
          rw [hstep, hlast2]
          have hL : (pre ++ [c]).length = pre.length + 1 := by simp
          have hfull : (pre ++ [c]) ++ rest2 = pre ++ (c :: rest2) := by simp
          cases hs : nd.sentinel with
          | false =>
              simp only [hs, Bool.false_eq_true, if_false]
              rw [ih nd (pre ++ [c]) idx best cidx, hL, hfull]
          | true =>
              simp only [hs, if_true]
              rw [ih nd (pre ++ [c]) idx, hL, hfull,
                walkLast_best rest2 nd (pre.length + 1) (some (pre.length + 1))]
              have ht : (pre ++ (c :: rest2)).take (pre.length + 1)
                  = pre ++ [c] := by
                rw [take_append_add pre (c :: rest2) 1]
                rfl
              have hd : (pre ++ (c :: rest2)).drop (pre.length + 1) = rest2 := by
                rw [drop_append_add pre (c :: rest2) 1]
                rfl
              cases hq : walkLast nd rest2 (pre.length + 1) none with
              | none =>
                  show ((pre ++ [c]) :: (sub rest2 (idx + (pre.length + 1))).1,
                        (sub rest2 (idx + (pre.length + 1))).2)
                      = (((pre ++ (c :: rest2)).take (pre.length + 1)) ::
                          (sub ((pre ++ (c :: rest2)).drop (pre.length + 1))
                            (idx + (pre.length + 1))).1,
                         (sub ((pre ++ (c :: rest2)).drop (pre.length + 1))
                           (idx + (pre.length + 1))).2)
                  rw [ht, hd]
              | some d => rfl

/-- The last-found-terminal rule: `_parse(root, line, idx)` fails exactly
when the walk from `line` reaches no sentinel, and otherwise returns the
combination headed by the prefix of `line` up to the sentinel found last
during the walk, followed by whatever the recursive parse of the remainder
returns, whether or not that continuation succeeds. -/
theorem tparse_last_terminal (root : TreeNode) (line : Str) (idx : Nat) :
    tparse root line idx
      = match walkLast root line 0 none with
        | none => ([], idx)
        | some d =>
            ((line.take d) :: (tparse root (line.drop d) (idx + d)).1,
             (tparse root (line.drop d) (idx + d)).2) := by
  cases line with
  | nil => rfl
  | cons c rest =>
      have hw := walkF_lastSpec (fun l i => tparseF (c :: rest).length root l i)
        (c :: rest) root [] idx [] idx
      simp only [List.length_nil, List.nil_append] at hw
      show (if (walkF (fun l i => tparseF (c :: rest).length root l i) root []
              (c :: rest) idx [] idx).1.isEmpty = true then (([] : List Str), idx)
            else walkF (fun l i => tparseF (c :: rest).length root l i) root []
              (c :: rest) idx [] idx)
          = _
      rw [hw]
      cases hwl : walkLast root (c :: rest) 0 none with
      | none => rfl
      | some d =>
          have hpos : 0 < d := by
            rcases walkLast_pos (c :: rest) root 0 none d hwl with h1 | h2
            · cases h1
            · exact h2
          have hfuel : tparseF (c :: rest).length root ((c :: rest).drop d) (idx + d)
              = tparse root ((c :: rest).drop d) (idx + d) :=
            tparseF_fuel (c :: rest).length (((c :: rest).drop d).length + 1) root
              ((c :: rest).drop d) (idx + d)
              (by simp only [List.length_drop, List.length_cons]; omega)
              (by omega)
          show (((c :: rest).take d) ::
                (tparseF (c :: rest).length root ((c :: rest).drop d) (idx + d)).1,
              (tparseF (c :: rest).length root ((c :: rest).drop d) (idx + d)).2) = _
          rw [hfuel]

/-- C2 counterexample: with graphemes ab, a, bb (code points 97, 98) and the
word abb, the walk from position 0 reaches the terminal a, whose recursive
continuation parses the rest bb successfully and consumes all 3 code points,
and then the terminal ab, whose continuation fails.  The parser nevertheless
records the later terminal ab, consuming only 2 code points, and error
replaces the final b, instead of recording the combination a, bb that
together with a successful recursive parse consumes more of the word. -/
theorem c2_counterexample :
    tparse (Tree.ofGraphemes [[97, 98], [97], [98, 98]]).root [98, 98] 1
        = ([[98, 98]], 3) ∧
      tparse (Tree.ofGraphemes [[97, 98], [97], [98, 98]]).root [97, 98, 98] 0
        = ([[97, 98]], 2) ∧
      (∀ g ∈ [[97], [98, 98]], g ∈ [[97, 98], [97], [98, 98]]) ∧
      ([[97], [98, 98]] : List Str).flatten = [97, 98, 98] ∧
      Tree.parse (Tree.ofGraphemes [[97, 98], [97], [98, 98]]) [97, 98, 98]
          (fun s => s)
        = [[97, 98], [98]] ∧
      Tree.parse (Tree.ofGraphemes [[97, 98], [97], [98, 98]]) [97, 98, 98]
          (fun s => s)
        ≠ [[97], [98, 98]] := by
  exact ⟨by decide, by decide, by decide, by decide, by decide, by decide⟩

/-- C2 amended: for every grapheme set and every word, the recursive parse
from a position is determined by the terminal found last during the
monotonically advancing trie walk: if the walk reaches no terminal the
position fails; otherwise the parser records the combination headed by the
grapheme consumed up to the last-found terminal, followed by whatever the
recursive parse of the remainder returns, whether or not that continuation
parses successfully or consumes more of the word.  In particular, with
graphemes t, o, oː (code points 116, 111, 720), parsing toːt yields
t, oː, t and not t, o, ː, t; and with graphemes ab, a, bb, parsing abb
keeps the last-found terminal ab and error replaces the final b even though
the combination a, bb would consume the whole word. -/
theorem c2_amended :
    (∀ (gs : List Str) (line : Str) (idx : Nat),
      tparse (Tree.ofGraphemes gs).root line idx
        = match walkLast (Tree.ofGraphemes gs).root line 0 none with
          | none => ([], idx)
          | some d =>
              ((line.take d) ::
                (tparse (Tree.ofGraphemes gs).root (line.drop d) (idx + d)).1,
               (tparse (Tree.ofGraphemes gs).root (line.drop d) (idx + d)).2)) ∧
    Tree.parse (Tree.ofGraphemes [[116], [111], [111, 720]]) [116, 111, 720, 116]
        (fun s => s)
      = [[116], [111, 720], [116]] ∧
    Tree.parse (Tree.ofGraphemes [[116], [111], [111, 720]]) [116, 111, 720, 116]
        (fun s => s)
      ≠ [[116], [111], [720], [116]] ∧
    Tree.parse (Tree.ofGraphemes [[97, 98], [97], [98, 98]]) [97, 98, 98]
        (fun s => s)
      = [[97, 98], [98]] :=
  ⟨fun gs line idx => tparse_last_terminal (Tree.ofGraphemes gs).root line idx,
   by decide, by decide, by decide⟩

/-! ## util.py and errors.py -/

/-- `util.REPLACEMENT_MARKER`: the marker literal as it stands in the source
file, read as UTF-8.  The file contains the three code points U+00EF U+00BF
U+00BD (the characters ï ¿ ½), which are the three UTF-8 bytes of U+FFFD
interpreted as individual characters. -/
def REPLACEMENT_MARKER : Str := [239, 191, 189]

namespace errors

/-- `errors.replace`: return the fixed replacement marker. -/
def replace (_ : Str) : Str := REPLACEMENT_MARKER

/-- `errors.ignore`: return the empty string. -/
def ignore (_ : Str) : Str := []

end errors

/-! ## profile.py

`profile.Profile.__init__` validates and indexes a sequence of grapheme
specifications.  A specification is a Python dict from column name to cell
value; dicts are modelled as association lists whose keys are pairwise
distinct, with lookup, insert-or-replace and pop mirroring dict behaviour.
The optional Unicode normalization (`unicodedata.normalize` with the
configured form) is an external collaborator and is passed in as a function
`nf : Str → Str`. -/

/-- The kinds of Python exceptions the embedded fragments can raise. -/
inductive PyErr : Type where
  | valueError
  | keyError
  | typeError
  | assertionError
  | indexError
deriving DecidableEq

/-- A cell value of a grapheme specification: null (`None`) or a string. -/
abbrev Value := Option Str

/-- A grapheme specification, as a dict from column name to value. -/
abbrev Row := List (Str × Value)

/-- Dict lookup: the binding of the key, if present. -/
def lookupVal : Row → Str → Option Value
  | [], _ => none
  | (k, v) :: rest, key => if k = key then some v else lookupVal rest key

/-- Membership test `key in dict`. -/
def rowHasKey (r : Row) (k : Str) : Bool := (lookupVal r k).isSome

/-- Dict store `d[k] = v`: replace the binding in place, else append. -/
def dictInsert : Row → Str → Value → Row
  | [], k, v => [(k, v)]
  | (k2, v2) :: rest, k, v =>
      if k2 = k then (k2, v) :: rest else (k2, v2) :: dictInsert rest k v

/-- Build a dict from a list of pairs as a Python dict comprehension does:
the first occurrence of a key fixes its position, the last its value. -/
def dictOfPairs (l : Row) : Row := l.foldl (fun d kv => dictInsert d kv.1 kv.2) []

/-- `dict.pop(k)`: the removed value together with the remaining dict, or
`none` when the key is absent (Python raises `KeyError` then). -/
def rowPop : Row → Str → Option (Value × Row)
  | [], _ => none
  | (k2, v) :: rest, k =>
      if k2 = k then some (v, rest)
      else (rowPop rest k).map fun p => (p.1, (k2, v) :: p.2)

/-- The dict comprehension of `Profile.__init__` normalizing every key and
every non-null value of a specification. -/
def normalizeRow (nf : Str → Str) (r : Row) : Row :=
  dictOfPairs (r.map fun kv => (nf kv.1, kv.2.map nf))

/-- The reserved grapheme column name, `"Grapheme"`. -/
def GRAPHEME : Str := [71, 114, 97, 112, 104, 101, 109, 101]

/-- The null sentinel string `"NULL"` (`Profile.NULL`). -/
def NULLSTR : Str := [78, 85, 76, 76]

/-- Python truthiness of a cell value: `None` and the empty string are
falsy, every non-empty string is truthy. -/
def truthyVal : Value → Bool
  | none => false
  | some [] => false
  | some (_ :: _) => true

/-- The specification after the optional normalization step. -/
def spec2Of (form : Option (Str → Str)) (spec : Row) : Row :=
  match form with
  | some nf => normalizeRow nf spec
  | none => spec

/-- `profile.Profile` after construction: the ordered dict from grapheme to
its remaining specification columns, the union of all column labels, and the
trie built from the graphemes. -/
structure Profile where
  graphemes : List (Str × Row)
  column_labels : List Str
  tree : Tree

/-- Set union `column_labels.union(spec.keys())`, keeping first-seen order. -/
def keysUnion (labels : List Str) (ks : List Str) : List Str :=
  ks.foldl (fun acc k => if k ∈ acc then acc else acc ++ [k]) labels

/-- One iteration of the `for i, spec in enumerate(specs)` loop of
`profile.Profile.__init__`: check the reserved key, normalize, pop the
grapheme, check it is non-empty, extend the column label set, and keep the
specification unless its grapheme was already seen (duplicates are logged
and dropped). -/
def profileStep (form : Option (Str → Str)) (st : List (Str × Row) × List Str)
    (spec : Row) : Except PyErr (List (Str × Row) × List Str) :=
  if ¬ rowHasKey spec GRAPHEME then .error .valueError
  else
    match rowPop (spec2Of form spec) GRAPHEME with
    | none => .error .keyError
    | some (v, rest) =>
        if ¬ truthyVal v then .error .valueError
        else
          let g := v.getD []
          let labels := keysUnion st.2 (rest.map (fun kv => kv.1))
          if g ∈ st.1.map (fun p => p.1) then .ok (st.1, labels)
          else .ok (st.1 ++ [(g, rest)], labels)

/-- The full construction loop of `profile.Profile.__init__`. -/
def profileInitGo (form : Option (Str → Str)) :
    List Row → (List (Str × Row) × List Str) →
      Except PyErr (List (Str × Row) × List Str)
  | [], st => .ok st
  | spec :: rest, st =>
      match profileStep form st spec with
      | .error e => .error e
      | .ok st2 => profileInitGo form rest st2

/-- `profile.Profile.__init__(*specs, form=...)`: run the loop from the empty
state and build the trie from the final grapheme keys. -/
def profileInit (form : Option (Str → Str)) (specs : List Row) :
    Except PyErr Profile :=
  match profileInitGo form specs ([], []) with
  | .error e => .error e
  | .ok st => .ok ⟨st.1, st.2, Tree.ofGraphemes (st.1.map (fun p => p.1))⟩

/-- The configured normalization applied to a cell value (`None` stays
`None`). -/
def applyFormV (form : Option (Str → Str)) (v : Value) : Value :=
  match form with
  | some nf => v.map nf
  | none => v

/-- The validity condition the specification reads off a single grapheme
specification: it must contain the reserved grapheme key, and its grapheme
value must be non-empty after the configured normalization is applied. -/
def specOkC (form : Option (Str → Str)) (spec : Row) : Bool :=
  rowHasKey spec GRAPHEME &&
    truthyVal (applyFormV form ((lookupVal spec GRAPHEME).getD none))

/-! ### Dict lemmas -/

theorem lookupVal_rowPop (r : Row) (k : Str) :
    (rowPop r k).map (fun p => p.1) = lookupVal r k := by
  induction r with
  | nil => rfl
  | cons p rest ih =>
      obtain ⟨k2, v⟩ := p
      by_cases h : k2 = k
      · simp [rowPop, lookupVal, h]
      · simp [rowPop, lookupVal, h, Option.map_map, Function.comp]
        exact ih

theorem lookup_dictInsert_self (d : Row) (k : Str) (v : Value) :
    lookupVal (dictInsert d k v) k = some v := by
  induction d with
  | nil => simp [dictInsert, lookupVal]
  | cons p rest ih =>
      obtain ⟨k2, v2⟩ := p
      by_cases h : k2 = k
      · simp [dictInsert, lookupVal, h]
      · simp [dictInsert, lookupVal, h, ih]

theorem lookup_dictInsert_other (d : Row) (k k2 : Str) (v : Value)
    (h : k2 ≠ k) : lookupVal (dictInsert d k2 v) k = lookupVal d k := by
  induction d with
  | nil => simp [dictInsert, lookupVal, h]
  | cons p rest ih =>
      obtain ⟨k3, v3⟩ := p
      show lookupVal (if k3 = k2 then (k3, v) :: rest else (k3, v3) :: dictInsert rest k2 v) k
        = lookupVal ((k3, v3) :: rest) k
      by_cases h3 : k3 = k2
      · rw [if_pos h3]
        have hk3 : ¬(k3 = k) := fun hc => h (h3 ▸ hc)
        show (if k3 = k then some v else lookupVal rest k)
          = (if k3 = k then some v3 else lookupVal rest k)
        rw [if_neg hk3, if_neg hk3]
      · rw [if_neg h3]
        show (if k3 = k then some v3 else lookupVal (dictInsert rest k2 v) k)
          = (if k3 = k then some v3 else lookupVal rest k)
        by_cases h4 : k3 = k
        · rw [if_pos h4, if_pos h4]
        · rw [if_neg h4, if_neg h4, ih]

theorem lookup_foldIns_of_not_mem (l : Row) :
    ∀ (d : Row) (k : Str), (∀ p ∈ l, p.1 ≠ k) →
      lookupVal (l.foldl (fun d kv => dictInsert d kv.1 kv.2) d) k
        = lookupVal d k := by
  induction l with
  | nil => intro d k _; rfl
  | cons p rest ih =>
      intro d k h
      rw [List.foldl_cons, ih _ k (fun q hq => h q (List.mem_cons_of_mem p hq))]
      exact lookup_dictInsert_other d k p.1 p.2 (h p (List.mem_cons_self p rest))

theorem lookup_dictOfPairs_single (l1 l2 : Row) (k : Str) (v : Value)
    (_h1 : ∀ p ∈ l1, p.1 ≠ k) (h2 : ∀ p ∈ l2, p.1 ≠ k) :
    lookupVal (dictOfPairs (l1 ++ (k, v) :: l2)) k = some v := by
  unfold dictOfPairs
  rw [List.foldl_append, List.foldl_cons]
  rw [lookup_foldIns_of_not_mem l2 _ k h2]
  exact lookup_dictInsert_self _ k v

theorem lookupVal_split (r : Row) (k : Str) (v : Value)
    (h : lookupVal r k = some v) :
    ∃ l1 l2, r = l1 ++ (k, v) :: l2 ∧ ∀ p ∈ l1, p.1 ≠ k := by
  induction r with
  | nil => simp [lookupVal] at h
  | cons p rest ih =>
      obtain ⟨k2, v2⟩ := p
      by_cases hk : k2 = k
      · subst hk
        have hv2 : v2 = v := by simpa [lookupVal] using h
        subst hv2
        exact ⟨[], rest, rfl, by simp⟩
      · simp only [lookupVal, if_neg hk] at h
        obtain ⟨l1, l2, heq, hne⟩ := ih h
        refine ⟨(k2, v2) :: l1, l2, by rw [heq]; rfl, ?_⟩
        intro q hq
        rcases List.mem_cons.mp hq with hq1 | hq2
        · rw [hq1]; exact hk
        · exact hne q hq2

/-- Under a normalization that neither creates nor destroys the reserved
grapheme key, popping the grapheme from the normalized specification yields
exactly the normalized original grapheme value. -/
theorem rowPop_spec2Of (form : Option (Str → Str)) (spec : Row) (v : Value)
    (hnodup : (spec.map (fun p => p.1)).Nodup)
    (hform : ∀ nf, form = some nf → ∀ k, nf k = GRAPHEME ↔ k = GRAPHEME)
    (hG : lookupVal spec GRAPHEME = some v) :
    ∃ rest, rowPop (spec2Of form spec) GRAPHEME
      = some (applyFormV form v, rest) := by
  cases form with
  | none =>
      have h := lookupVal_rowPop spec GRAPHEME
      rw [hG] at h
      cases hp : rowPop spec GRAPHEME with
      | none => rw [hp] at h; exact absurd h (fun hc => Option.noConfusion hc)
      | some p =>
          rw [hp] at h
          have hv1 : p.1 = v := by simpa using h
          exact ⟨p.2, by rw [show spec2Of none spec = spec from rfl, hp,
            show applyFormV none v = v from rfl, ← hv1]⟩
  | some nf =>
      obtain ⟨l1, l2, heq, hne1⟩ := lookupVal_split spec GRAPHEME v hG
      have hne2 : ∀ p ∈ l2, p.1 ≠ GRAPHEME := by
        intro p hp
        have hnd := hnodup
        rw [heq] at hnd
        simp only [List.map_append, List.map_cons] at hnd
        have := (List.nodup_append.mp hnd).2.1
        have hnotmem := (List.nodup_cons.mp this).1
        intro hcontra
        exact hnotmem (by rw [← hcontra]; exact List.mem_map_of_mem (fun q => q.1) hp)
      have hlk : lookupVal (normalizeRow nf spec) GRAPHEME = some (v.map nf) := by
        unfold normalizeRow
        rw [heq, List.map_append, List.map_cons]
        have hnfG : nf GRAPHEME = GRAPHEME := ((hform nf rfl) GRAPHEME).mpr rfl
        rw [hnfG]
        apply lookup_dictOfPairs_single
        · intro p hp
          obtain ⟨q, hq, hpq⟩ := List.mem_map.mp hp
          rw [← hpq]
          intro hcontra
          exact hne1 q hq (((hform nf rfl) q.1).mp hcontra)
        · intro p hp
          obtain ⟨q, hq, hpq⟩ := List.mem_map.mp hp
          rw [← hpq]
          intro hcontra
          exact hne2 q hq (((hform nf rfl) q.1).mp hcontra)
      have h := lookupVal_rowPop (normalizeRow nf spec) GRAPHEME
      rw [hlk] at h
      cases hp : rowPop (normalizeRow nf spec) GRAPHEME with
      | none => rw [hp] at h; exact absurd h (fun hc => Option.noConfusion hc)
      | some p =>
          rw [hp] at h
          have hv1 : p.1 = v.map nf := by simpa using h
          exact ⟨p.2, by rw [show spec2Of (some nf) spec = normalizeRow nf spec from rfl, hp,
            show applyFormV (some nf) v = v.map nf from rfl, ← hv1]⟩

/-- One construction step succeeds exactly on valid specifications, fails
with `ValueError` otherwise, and on success updates the state by dropping
duplicate graphemes. -/
theorem profileStep_cases (form : Option (Str → Str))
    (st : List (Str × Row) × List Str) (spec : Row)
    (hnodup : (spec.map (fun p => p.1)).Nodup)
    (hform : ∀ nf, form = some nf → ∀ k, nf k = GRAPHEME ↔ k = GRAPHEME) :
    (specOkC form spec = false → profileStep form st spec = .error .valueError) ∧
    (specOkC form spec = true → ∃ g rest,
      rowPop (spec2Of form spec) GRAPHEME = some (some g, rest) ∧
      profileStep form st spec =
        .ok (if g ∈ st.1.map (fun p => p.1) then st.1 else st.1 ++ [(g, rest)],
             keysUnion st.2 (rest.map (fun kv => kv.1)))) := by
  cases hk : rowHasKey spec GRAPHEME with
  | true =>
    have hv : ∃ v, lookupVal spec GRAPHEME = some v := by
      unfold rowHasKey at hk
      cases h : lookupVal spec GRAPHEME with
      | none => rw [h] at hk; simp at hk
      | some v => exact ⟨v, rfl⟩
    obtain ⟨v, hv⟩ := hv
    obtain ⟨rest, hpop⟩ := rowPop_spec2Of form spec v hnodup hform hv
    have hstep : profileStep form st spec =
        (if ¬ truthyVal (applyFormV form v) then .error .valueError
         else
          let g := (applyFormV form v).getD []
          let labels := keysUnion st.2 (rest.map (fun kv => kv.1))
          if g ∈ st.1.map (fun p => p.1) then .ok (st.1, labels)
          else .ok (st.1 ++ [(g, rest)], labels)) := by
      unfold profileStep
      rw [if_neg (by simp [hk]), hpop]
    have hok : specOkC form spec = truthyVal (applyFormV form v) := by
      unfold specOkC
      rw [hv, hk]
      simp
    constructor
    · intro hbad
      rw [hok] at hbad
      rw [hstep, if_pos (by simp [hbad])]
    · intro hgood
      rw [hok] at hgood
      have hvs : ∃ g, applyFormV form v = some g := by
        cases happ : applyFormV form v with
        | none => rw [happ] at hgood; simp [truthyVal] at hgood
        | some s => exact ⟨s, rfl⟩
      obtain ⟨g, hg⟩ := hvs
      refine ⟨g, rest, by rw [hpop, hg], ?_⟩
      rw [hstep, if_neg (by simp [hgood])]
      simp only [hg, Option.getD_some]
      by_cases hmem : g ∈ st.1.map (fun p => p.1)
      · rw [if_pos hmem, if_pos hmem]
      · rw [if_neg hmem, if_neg hmem]
  | false =>
    have hbadspec : specOkC form spec = false := by
      unfold specOkC
      rw [hk]
      simp
    constructor
    · intro _
      unfold profileStep
      rw [if_pos (by simp [hk])]
    · intro hgood
      rw [hbadspec] at hgood
      cases hgood

/-- The whole construction loop succeeds if and only if every specification
is valid, and every failure is a `ValueError`. -/
theorem profileInitGo_iff (form : Option (Str → Str)) :
    ∀ (specs : List Row) (st : List (Str × Row) × List Str),
      (∀ spec ∈ specs, (spec.map (fun p => p.1)).Nodup) →
      (∀ nf, form = some nf → ∀ k, nf k = GRAPHEME ↔ k = GRAPHEME) →
      ((profileInitGo form specs st).isOk = true ↔
        ∀ spec ∈ specs, specOkC form spec = true) ∧
      (∀ e, profileInitGo form specs st = .error e → e = .valueError) := by
  intro specs
  induction specs with
  | nil =>
      intro st _ _
      exact ⟨by simp [profileInitGo, Except.isOk, Except.toBool], by intro e h; cases h⟩
  | cons spec rest ih =>
      intro st hnodup hform
      have hstep := profileStep_cases form st spec
        (hnodup spec (List.mem_cons_self spec rest)) hform
      cases hok : specOkC form spec with
      | false =>
          have herr := hstep.1 hok
          constructor
          · constructor
            · intro hcontra
              rw [show profileInitGo form (spec :: rest) st
                  = match profileStep form st spec with
                    | .error e => .error e
                    | .ok st2 => profileInitGo form rest st2 from rfl, herr] at hcontra
              simp [Except.isOk, Except.toBool] at hcontra
            · intro hall
              exact absurd (hall spec (List.mem_cons_self spec rest)) (by simp [hok])
          · intro e he
            rw [show profileInitGo form (spec :: rest) st
                = match profileStep form st spec with
                  | .error e => .error e
                  | .ok st2 => profileInitGo form rest st2 from rfl, herr] at he
            cases he
            rfl
      | true =>
          obtain ⟨g, grest, hpop, hokstep⟩ := hstep.2 hok
          have huse : profileInitGo form (spec :: rest) st
              = profileInitGo form rest
                  (if g ∈ st.1.map (fun p => p.1) then st.1 else st.1 ++ [(g, grest)],
                   keysUnion st.2 (grest.map (fun kv => kv.1))) := by
            rw [show profileInitGo form (spec :: rest) st
                = match profileStep form st spec with
                  | .error e => .error e
                  | .ok st2 => profileInitGo form rest st2 from rfl, hokstep]
          have hrest := ih
            (if g ∈ st.1.map (fun p => p.1) then st.1 else st.1 ++ [(g, grest)],
             keysUnion st.2 (grest.map (fun kv => kv.1)))
            (fun q hq => hnodup q (List.mem_cons_of_mem spec hq)) hform
          constructor
          · rw [huse, hrest.1]
            constructor
            · intro hall q hq
              rcases List.mem_cons.mp hq with hq1 | hq2
              · rw [hq1]; exact hok
              · exact hall q hq2
            · intro hall q hq
              exact hall q (List.mem_cons_of_mem spec hq)
          · intro e he
            rw [huse] at he
            exact hrest.2 e he

/-- C7: Profile construction raises an argument-validation error exactly for
a specification that lacks the reserved grapheme key or whose grapheme value
is empty (or null) after the configured normalization; otherwise the
construction succeeds.  The normalization function is assumed not to map any
other column name to the reserved grapheme name, which holds for the Unicode
canonical forms since the reserved name is plain ASCII. -/
theorem c7_profile_validation (form : Option (Str → Str)) (specs : List Row)
    (hform : ∀ nf, form = some nf → ∀ k, nf k = GRAPHEME ↔ k = GRAPHEME)
    (hnodup : ∀ spec ∈ specs, (spec.map (fun p => p.1)).Nodup) :
    ((profileInit form specs).isOk = true ↔
      ∀ spec ∈ specs, specOkC form spec = true) ∧
    (∀ e, profileInit form specs = .error e → e = .valueError) := by
  have hgo := profileInitGo_iff form specs ([], []) hnodup hform
  constructor
  · rw [← hgo.1]
    unfold profileInit
    cases h : profileInitGo form specs ([], []) with
    | error e => simp [Except.isOk, Except.toBool]
    | ok st => simp [Except.isOk, Except.toBool]
  · intro e he
    unfold profileInit at he
    cases h : profileInitGo form specs ([], []) with
    | error e2 =>
        rw [h] at he
        cases he
        exact hgo.2 _ h
    | ok st => rw [h] at he; cases he

/-- C7 witness: with no normalization configured, a two-specification list
whose second specification lacks the grapheme key is rejected, and the
validity condition indeed fails for it. -/
theorem c7_profile_validation_witness :
    ((∀ spec ∈ [[(GRAPHEME, some [97]), ([88], some [120])],
        [([89], (some [121] : Value))]], (spec.map (fun p => p.1)).Nodup) ∧
      ¬ ((profileInit none [[(GRAPHEME, some [97]), ([88], some [120])],
        [([89], some [121])]]).isOk = true)) ∧
    ((∀ spec ∈ [[(GRAPHEME, (some [97] : Value))]], (spec.map (fun p => p.1)).Nodup) ∧
      (profileInit none [[(GRAPHEME, some [97])]]).isOk = true) := by
  constructor
  · refine ⟨by decide, ?_⟩
    rw [(c7_profile_validation none _ (fun nf h => by cases h) (by decide)).1]
    decide
  · refine ⟨by decide, ?_⟩
    rw [(c7_profile_validation none _ (fun nf h => by cases h) (by decide)).1]
    decide

/-! ### C3: duplicate graphemes -/

/-- Claim-side description of duplicate handling: keep each specification
whose grapheme key was not seen before (in insertion order), drop every
later specification with an already-seen grapheme key. -/
def firstSeenByKeyGo (seen : List Str) : List (Str × Row) → List (Str × Row)
  | [] => []
  | (k, v) :: rest =>
      if k ∈ seen then firstSeenByKeyGo seen rest
      else (k, v) :: firstSeenByKeyGo (seen ++ [k]) rest

/-- The grapheme key and remaining attribute columns of a specification
(no normalization configured). -/
def entryOf (spec : Row) : Str × Row :=
  match rowPop spec GRAPHEME with
  | some (some g, rest) => (g, rest)
  | _ => ([], [])

theorem firstSeenByKeyGo_keys_nodup :
    ∀ (l : List (Str × Row)) (seen : List Str),
      ((firstSeenByKeyGo seen l).map (fun p => p.1)).Nodup ∧
      (∀ k ∈ (firstSeenByKeyGo seen l).map (fun p => p.1), k ∉ seen) := by
  intro l
  induction l with
  | nil => intro seen; exact ⟨List.nodup_nil, by simp [firstSeenByKeyGo]⟩
  | cons p rest ih =>
      intro seen
      obtain ⟨k, v⟩ := p
      by_cases hk : k ∈ seen
      · rw [show firstSeenByKeyGo seen ((k, v) :: rest)
            = firstSeenByKeyGo seen rest from by rw [firstSeenByKeyGo, if_pos hk]]
        exact ih seen
      · rw [show firstSeenByKeyGo seen ((k, v) :: rest)
            = (k, v) :: firstSeenByKeyGo (seen ++ [k]) rest from by
              rw [firstSeenByKeyGo, if_neg hk]]
        obtain ⟨hnd, hmem⟩ := ih (seen ++ [k])
        refine ⟨List.nodup_cons.mpr ⟨?_, hnd⟩, ?_⟩
        · intro hcontra
          exact (hmem k hcontra) (by simp)
        · intro k2 hk2
          rcases List.mem_cons.mp hk2 with h1 | h2
          · rw [h1]; exact hk
          · intro hcontra
            exact (hmem k2 h2) (by simp [hcontra])

/-- The construction loop on valid specifications: it cannot fail, and its
grapheme dict extends the accumulated one by the first-seen-key filtering of
the remaining specifications. -/
theorem profileInitGo_shape_none :
    ∀ (specs : List Row) (st : List (Str × Row) × List Str),
      (∀ spec ∈ specs, (spec.map (fun p => p.1)).Nodup) →
      (∀ spec ∈ specs, specOkC none spec = true) →
      ∃ labs, profileInitGo none specs st
        = .ok (st.1 ++ firstSeenByKeyGo (st.1.map (fun p => p.1)) (specs.map entryOf),
               labs) := by
  intro specs
  induction specs with
  | nil =>
      intro st _ _
      exact ⟨st.2, by simp [profileInitGo, firstSeenByKeyGo]⟩
  | cons spec rest ih =>
      intro st hnodup hval
      obtain ⟨g, grest, hpop, hokstep⟩ :=
        (profileStep_cases none st spec (hnodup spec (List.mem_cons_self spec rest))
          (fun nf h => by cases h)).2 (hval spec (List.mem_cons_self spec rest))
      have hentry : entryOf spec = (g, grest) := by
        unfold entryOf
        rw [show rowPop spec GRAPHEME = some (some g, grest) from hpop]
      have huse : ∀ st2, profileStep none st spec = .ok st2 →
          profileInitGo none (spec :: rest) st = profileInitGo none rest st2 := by
        intro st2 h2
        rw [show profileInitGo none (spec :: rest) st
            = match profileStep none st spec with
              | .error e => .error e
              | .ok st2 => profileInitGo none rest st2 from rfl, h2]
      by_cases hmem : g ∈ st.1.map (fun p => p.1)
      · rw [if_pos hmem] at hokstep
        obtain ⟨labs, hrest⟩ := ih (st.1, keysUnion st.2 (grest.map (fun kv => kv.1)))
          (fun q hq => hnodup q (List.mem_cons_of_mem spec hq))
          (fun q hq => hval q (List.mem_cons_of_mem spec hq))
        refine ⟨labs, ?_⟩
        rw [huse _ hokstep, hrest]
        have hfsk : firstSeenByKeyGo (st.1.map (fun p => p.1)) ((spec :: rest).map entryOf)
            = firstSeenByKeyGo (st.1.map (fun p => p.1)) (rest.map entryOf) := by
          rw [List.map_cons, hentry, firstSeenByKeyGo, if_pos hmem]
        rw [hfsk]
      · rw [if_neg hmem] at hokstep
        obtain ⟨labs, hrest⟩ := ih
          (st.1 ++ [(g, grest)], keysUnion st.2 (grest.map (fun kv => kv.1)))
          (fun q hq => hnodup q (List.mem_cons_of_mem spec hq))
          (fun q hq => hval q (List.mem_cons_of_mem spec hq))
        refine ⟨labs, ?_⟩
        rw [huse _ hokstep, hrest]
        have hkeys : (st.1 ++ [(g, grest)]).map (fun p => p.1)
            = st.1.map (fun p => p.1) ++ [g] := by simp
        have hfsk : firstSeenByKeyGo (st.1.map (fun p => p.1)) ((spec :: rest).map entryOf)
            = (g, grest) :: firstSeenByKeyGo (st.1.map (fun p => p.1) ++ [g])
                (rest.map entryOf) := by
          rw [List.map_cons, hentry, firstSeenByKeyGo, if_neg hmem]
        rw [hkeys, hfsk]
        simp [List.append_assoc]

/-- C3: for every sequence of well-formed, individually valid grapheme
specifications (in particular one containing two specifications with the
same grapheme key), Profile construction succeeds without raising, each
grapheme appears exactly once at its first-seen insertion position, and the
attribute columns kept for it are exactly those of its first occurrence;
later occurrences are dropped. -/
theorem c3_duplicate_graphemes (specs : List Row)
    (hnodup : ∀ spec ∈ specs, (spec.map (fun p => p.1)).Nodup)
    (hval : ∀ spec ∈ specs, specOkC none spec = true) :
    ∃ P, profileInit none specs = .ok P ∧
      P.graphemes = firstSeenByKeyGo [] (specs.map entryOf) ∧
      (P.graphemes.map (fun p => p.1)).Nodup := by
  obtain ⟨labs, hgo⟩ := profileInitGo_shape_none specs ([], []) hnodup hval
  refine ⟨⟨firstSeenByKeyGo [] (specs.map entryOf), labs,
    Tree.ofGraphemes ((firstSeenByKeyGo [] (specs.map entryOf)).map (fun p => p.1))⟩,
    ?_, rfl, (firstSeenByKeyGo_keys_nodup _ []).1⟩
  unfold profileInit
  rw [hgo]
  simp

/-- C3 witness: three specifications where the first and third share the
grapheme a; the retained attribute value for a is the one of the first
occurrence (x), and the third specification is dropped. -/
theorem c3_duplicate_graphemes_witness :
    ((∀ spec ∈ [[(GRAPHEME, some [97]), ([73], some [120])],
        [(GRAPHEME, some [98])],
        [(GRAPHEME, some [97]), ([73], (some [121] : Value))]],
        (spec.map (fun p => p.1)).Nodup) ∧
      (∀ spec ∈ [[(GRAPHEME, some [97]), ([73], some [120])],
        [(GRAPHEME, some [98])],
        [(GRAPHEME, some [97]), ([73], (some [121] : Value))]],
        specOkC none spec = true)) ∧
    firstSeenByKeyGo []
        ([[(GRAPHEME, some [97]), ([73], some [120])],
          [(GRAPHEME, some [98])],
          [(GRAPHEME, some [97]), ([73], (some [121] : Value))]].map entryOf)
      = [([97], [([73], some [120])]), ([98], [])] ∧
    ∃ P, profileInit none
        [[(GRAPHEME, some [97]), ([73], some [120])],
          [(GRAPHEME, some [98])],
          [(GRAPHEME, some [97]), ([73], (some [121] : Value))]] = .ok P ∧
      P.graphemes = firstSeenByKeyGo []
        ([[(GRAPHEME, some [97]), ([73], some [120])],
          [(GRAPHEME, some [98])],
          [(GRAPHEME, some [97]), ([73], (some [121] : Value))]].map entryOf) ∧
      (P.graphemes.map (fun p => p.1)).Nodup :=
  ⟨⟨by decide, by decide⟩, by decide,
    c3_duplicate_graphemes _ (by decide) (by decide)⟩

/-! ## tokenizer.py

The tokenizer module carries its own legacy `Profile` class (list-typed
`column_labels` from the first specification, a `(grapheme, column)`-keyed
`mappings` dict); the `Tokenizer` in the same module uses that class, so it
is embedded separately from `profile.Profile` above.  Cell values here are
dynamically typed (`None`, string, or list of strings).  The `NULL` sentinel
imported from `util` is the string `"NULL"` as defined by `profile.Profile`
and `metadata.py`. -/

/-- A dynamically typed cell value: `None`, a string, or a list of strings. -/
inductive PyVal : Type where
  | vnone
  | vstr (s : Str)
  | vlist (l : List Str)
deriving DecidableEq

/-- Python truthiness: `None`, the empty string and the empty list are
falsy. -/
def pyTruthy : PyVal → Bool
  | .vnone => false
  | .vstr s => !s.isEmpty
  | .vlist l => !l.isEmpty

/-- Python equality of such a value with a string: lists and `None` never
equal a string. -/
def pyEqStr (v : PyVal) (s : Str) : Bool :=
  match v with
  | .vstr s2 => decide (s2 = s)
  | _ => false

/-- A specification row of the legacy Profile. -/
abbrev TRow := List (Str × PyVal)

/-- Dict lookup in a specification row. -/
def lookupT : TRow → Str → Option PyVal
  | [], _ => none
  | (k, v) :: rest, key => if k = key then some v else lookupT rest key

/-- Dict lookup in the `(grapheme, column)`-keyed mappings. -/
def lookupM : List ((Str × Str) × PyVal) → Str × Str → Option PyVal
  | [], _ => none
  | (k, v) :: rest, key => if k = key then some v else lookupM rest key

/-- Dict store in the mappings (replace in place or append). -/
def updM : List ((Str × Str) × PyVal) → Str × Str → PyVal →
    List ((Str × Str) × PyVal)
  | [], k, v => [(k, v)]
  | (k2, v2) :: rest, k, v =>
      if k2 = k then (k2, v) :: rest else (k2, v2) :: updM rest k v

/-- The legacy `Profile` of tokenizer.py after construction. -/
structure TProfile where
  graphemes : List Str
  mappings : List ((Str × Str) × PyVal)
  column_labels : List Str
  tree : Tree

/-- `self.mappings.update({(grapheme, k): v for k, v in spec.items() if k !=
GRAPHEME_COL})`: later specifications overwrite existing entries. -/
def mappingsUpdate (m : List ((Str × Str) × PyVal)) (g : Str) (spec : TRow) :
    List ((Str × Str) × PyVal) :=
  spec.foldl (fun acc kv => if kv.1 = GRAPHEME then acc else updM acc (g, kv.1) kv.2) m

/-- The construction state: graphemes, mappings, column labels. -/
abbrev TPState := List Str × List ((Str × Str) × PyVal) × List Str

/-- One iteration of the loop in the legacy `Profile.__init__`: set the
column labels from the first specification, require the grapheme key, drop
duplicate graphemes from the grapheme list (logged only), and always update
the mappings.  A non-string grapheme value would crash only later, when the
`Tree` is built from the grapheme list; it is rejected here and never occurs
in the claims. -/
def tprofileStep (st : TPState) (spec : TRow) : Except PyErr TPState :=
  let labels := if st.2.2.isEmpty then spec.map (fun kv => kv.1) else st.2.2
  match lookupT spec GRAPHEME with
  | none => .error .valueError
  | some v =>
      match v with
      | .vstr g =>
          let graphemes := if g ∈ st.1 then st.1 else st.1 ++ [g]
          .ok (graphemes, mappingsUpdate st.2.1 g spec, labels)
      | _ => .error .typeError

/-- The construction loop of the legacy `Profile.__init__`. -/
def tprofileInitGo : List TRow → TPState → Except PyErr TPState
  | [], st => .ok st
  | spec :: rest, st =>
      match tprofileStep st spec with
      | .error e => .error e
      | .ok st2 => tprofileInitGo rest st2

/-- The legacy `Profile.__init__(*specs)`. -/
def tprofileInit (specs : List TRow) : Except PyErr TProfile :=
  match tprofileInitGo specs ([], [], []) with
  | .error e => .error e
  | .ok st => .ok ⟨st.1, st.2.1, st.2.2, Tree.ofGraphemes st.1⟩

/-! ### The rule engine (`Rules`) -/

/-- One piece of a substitution template: a literal or a back-reference to a
capture group (1-indexed, as in a regex replacement string). -/
inductive TItem : Type where
  | lit (s : Str)
  | group (n : Nat)

/-- Render a replacement template against the captured groups of a match. -/
def renderTmpl (tmpl : List TItem) (gs : List Str) : Str :=
  tmpl.foldr
    (fun it acc =>
      (match it with
       | .lit s => s
       | .group n => gs.getD (n - 1) []) ++ acc) []

/-- A compiled rule: a matcher trying the pattern at the start of a string
(returning the length consumed and the captured groups) together with the
replacement template.  The regex engine itself is an external collaborator;
a matcher never consumes fewer than one code point on a match here. -/
structure Rule : Type where
  matcher : Str → Option (Nat × List Str)
  repl : List TItem

/-- `pattern.sub(replacement, s)`: global, leftmost, non-overlapping
substitution, scanning left to right.  Fueled structurally; every step
consumes at least one code point, so `s.length + 1` always suffices. -/
def globalSubF (m : Str → Option (Nat × List Str)) (tmpl : List TItem) :
    Nat → Str → Str
  | 0, s => s
  | fuel + 1, s =>
      match m s with
      | some (k, gs) => renderTmpl tmpl gs ++ globalSubF m tmpl fuel (s.drop (max k 1))
      | none =>
          match s with
          | [] => []
          | c :: rest => c :: globalSubF m tmpl fuel rest

/-- `pattern.sub(replacement, s)` with enough fuel. -/
def globalSub (m : Str → Option (Nat × List Str)) (tmpl : List TItem)
    (s : Str) : Str :=
  globalSubF m tmpl (s.length + 1) s

/-- `Rules`: the ordered rule list. -/
structure Rules : Type where
  rules : List Rule

/-- `Rules.apply(s)`: each rule substitutes globally on the output of the
previous rule, in order. -/
def Rules.apply (rs : Rules) (s : Str) : Str :=
  rs.rules.foldl (fun s r => globalSub r.matcher r.repl s) s

/-! ### combine_modifiers -/

/-- `result[-1] = p + result[-1]`: prefix onto the last element, raising
`IndexError` on an empty list. -/
def setLastPre : List Str → Str → Except PyErr (List Str)
  | [], _ => .error .indexError
  | [x], p => .ok [p ++ x]
  | x :: y :: rest, p =>
      match setLastPre (y :: rest) p with
      | .error e => .error e
      | .ok r => .ok (x :: r)

/-- `result[-1][0]`: the first code point of the last element, raising
`IndexError` when the list or its last element is empty. -/
def lastHead : List Str → Except PyErr Nat
  | [] => .error .indexError
  | [x] =>
      match x with
      | [] => .error .indexError
      | c :: _ => .ok c
  | _ :: y :: rest => lastHead (y :: rest)

/-- `s[-1]`: the last code point of a string. -/
def lastChar : Str → Except PyErr Nat
  | [] => .error .indexError
  | [c] => .ok c
  | _ :: c :: rest => lastChar (c :: rest)

/-- The `for grapheme in reversed(graphemes)` loop of `combine_modifiers`:
the first list argument is the reversed cluster list, `result` and `temp`
are the loop variables; `count == 0` holds exactly when the remaining
reversed list is empty. -/
def cmLoop (isLm isSk : Nat → Bool) : List Str → List Str → Str →
    Except PyErr (List Str)
  | [], result, _ => .ok result
  | g :: rest, result, temp =>
      if g.length = 1 ∧ isLm (g.headD 0) ∧ ¬(g.headD 0 = 712 ∨ g.headD 0 = 716) then
        let temp2 := g ++ temp
        if rest.isEmpty then
          match setLastPre result temp2 with
          | .error e => .error e
          | .ok result2 => cmLoop isLm isSk rest result2 temp2
        else cmLoop isLm isSk rest result temp2
      else if g.length = 1 ∧ (g.headD 0 = 712 ∨ g.headD 0 = 716) then
        match setLastPre result g with
        | .error e => .error e
        | .ok result2 => cmLoop isLm isSk rest result2 []
      else if g.length = 1 ∧ isSk (g.headD 0) then
        if result.isEmpty then cmLoop isLm isSk rest (result ++ [g]) []
        else
          match lastHead result with
          | .error e => .error e
          | .ok c0 =>
              if isSk c0 then
                match setLastPre result g with
                | .error e => .error e
                | .ok result2 => cmLoop isLm isSk rest result2 []
              else cmLoop isLm isSk rest (result ++ [g ++ temp]) []
      else cmLoop isLm isSk rest (result ++ [g ++ temp]) []

/-- The final tie-bar pass over `segments = result[::-1]`: a segment ending
in U+0361 or U+035C is concatenated with the following segment (reading
`segments[i + 1]` past the end raises `IndexError`). -/
def tieLoop : List Str → Except PyErr (List Str)
  | [] => .ok []
  | seg :: rest =>
      match lastChar seg with
      | .error e => .error e
      | .ok c =>
          if c = 865 ∨ c = 860 then
            match rest with
            | [] => .error .indexError
            | nxt :: rest2 =>
                match tieLoop rest2 with
                | .error e => .error e
                | .ok r => .ok ((seg ++ nxt) :: r)
          else
            match tieLoop rest with
            | .error e => .error e
            | .ok r => .ok (seg :: r)

/-- `Tokenizer.combine_modifiers(graphemes)`. -/
def combine_modifiers (isLm isSk : Nat → Bool) (graphemes : List Str) :
    Except PyErr (List Str) :=
  match cmLoop isLm isSk graphemes.reverse [] [] with
  | .error e => .error e
  | .ok result => tieLoop result.reverse

/-! ### The Tokenizer -/

/-- Whitespace, as used by `str.split()`, `str.strip()` and the regex
class in the rule pattern; the code points exercised by the claims only ever
use the space character U+0020. -/
def isSpaceChar (c : Nat) : Bool :=
  c = 32 || c = 9 || c = 10 || c = 11 || c = 12 || c = 13

/-- `str.split()`: split on runs of whitespace, dropping empty words. -/
def splitWs : Str → List Str
  | [] => []
  | c :: rest =>
      if isSpaceChar c then splitWs rest
      else
        match splitWs rest, rest with
        | [], _ => [[c]]
        | w :: ws, r2 =>
            if isSpaceChar (r2.headD 32) then [c] :: w :: ws else (c :: w) :: ws

/-- `sep.join(words)`. -/
def joinSep (sep : Str) : List Str → Str
  | [] => []
  | [w] => w
  | w :: x :: rest => w ++ sep ++ joinSep sep (x :: rest)

/-- `str.strip()`. -/
def stripWs (s : Str) : Str :=
  ((s.dropWhile isSpaceChar).reverse.dropWhile isSpaceChar).reverse

/-- The external collaborators of the Tokenizer: the NFD normalization
(`util.nfd`), the extended-grapheme-cluster splitter (regex `\X` findall),
and the Unicode general-category tests for Modifier Letter and Modifier
Symbol used by `combine_modifiers`. -/
structure Ext : Type where
  nfd : Str → Str
  clusters : Str → List Str
  isLm : Nat → Bool
  isSk : Nat → Bool

/-- A `Tokenizer`: at most one legacy profile, at most one rule set, and the
configured replace error handler (the `errors_replace` constructor
argument, stored under the replace key of `self._errors`). -/
structure Tokenizer : Type where
  op : Option TProfile
  rules : Option Rules
  errorsReplace : Str → Str

/-- `Tokenizer.transform(word, column, error)`: assert a profile is
attached, validate the column against the profile column labels, parse the
word with the trie, and unless the grapheme column itself was requested,
remap every token through the mappings: a truthy mapped value is kept (lists
are flattened in order), a missing or falsy one is replaced by the output of
the replace handler, and a value equal to the NULL sentinel is dropped. -/
def Tokenizer.transform (t : Tokenizer) (word : Str) (column : Str)
    (error : Str → Str) : Except PyErr (List Str) :=
  match t.op with
  | none => .error .assertionError
  | some op =>
      if column ∉ op.column_labels then .error .valueError
      else
        let tokens := Tree.parse op.tree word error
        if column = GRAPHEME then .ok tokens
        else
          .ok (tokens.foldl
            (fun out token =>
              let raw := (lookupM op.mappings (token, column)).getD .vnone
              let target := if pyTruthy raw then raw else .vstr (t.errorsReplace token)
              if pyEqStr target NULLSTR then out
              else
                match target with
                | .vlist l => out ++ l
                | .vstr s => out ++ [s]
                | .vnone => out) [])

/-- `Tokenizer.__call__(string, column, form, ipa, segment_separator,
separator, errors)`: normalize to NFD, split into words, process each word
(IPA combination, profile transform, or plain cluster split), then join each
word with the segment separator, strip, apply the rules and the output
normalization, and join the words with the separator.  `err` is the error
handler selected by the `errors` argument (`self._errors[errors]`). -/
def Tokenizer.call (t : Tokenizer) (ext : Ext) (string : Str) (column : Str)
    (form : Option (Str → Str)) (ipa : Bool) (segsep : Str) (sep : Str)
    (err : Str → Str) : Except PyErr Str :=
  let words := splitWs (ext.nfd string)
  match words.mapM
      (fun word =>
        if ipa then combine_modifiers ext.isLm ext.isSk (ext.clusters word)
        else
          match t.op with
          | some _ => t.transform word column err
          | none => .ok (ext.clusters word)) with
  | .error e => .error e
  | .ok res =>
      let pp := fun (w : List Str) =>
        let s1 := stripWs (joinSep segsep w)
        let s2 := match t.rules with
          | some rs => Rules.apply rs s1
          | none => s1
        match form with
        | some f => f s2
        | none => s2
      .ok (joinSep sep (res.map pp))

/-- The concrete external collaborators used by the concrete theorems: the
involved code points (ASCII letters, space, U+02B0, U+02D0, U+02C8, U+02CC,
U+0361) have no canonical decomposition, each forms its own extended
grapheme cluster when not preceded by a base for a combining mark, and of
them exactly U+02B0, U+02C8, U+02CC and U+02D0 have category Lm while none
has category Sk.  `isLm` is consulted by the claims only at 688 (U+02B0),
712 (U+02C8), 716 (U+02CC) and ASCII letters. -/
def extId : Ext :=
  ⟨fun s => s, fun w => w.map (fun c => [c]),
   fun c => c = 688 || c = 712 || c = 716, fun _ => false⟩

/-- C4: the default replace error policy returns the fixed module constant
`REPLACEMENT_MARKER` for every input; but as written in util.py that
constant is the three code points U+00EF U+00BF U+00BD (the UTF-8 bytes of
U+FFFD read as characters), not a single reserved replacement character
U+FFFD.  The marker is configurable: constructing the Tokenizer with a
custom replace handler makes tokenization emit that handler output (here #)
for the unmatched code point, as in parsing toːt= against the graphemes t,
o, oː. -/
theorem c4_replacement_marker :
    (∀ s : Str, errors.replace s = REPLACEMENT_MARKER) ∧
    REPLACEMENT_MARKER = [239, 191, 189] ∧
    REPLACEMENT_MARKER.length = 3 ∧
    REPLACEMENT_MARKER ≠ [65533] ∧
    (tprofileInit [[(GRAPHEME, PyVal.vstr [116])], [(GRAPHEME, PyVal.vstr [111])],
        [(GRAPHEME, PyVal.vstr [111, 720])]]).bind
      (fun op => Tokenizer.call ⟨some op, none, fun _ => [35]⟩ extId
         [116, 111, 720, 116, 61] GRAPHEME none false [32] [32, 35, 32]
         (fun _ => [35]))
      = .ok [116, 32, 111, 720, 32, 116, 32, 35] :=
  ⟨fun _ => rfl, rfl, rfl, by decide, rfl⟩

/-- C8: rule application is a sequential pipeline in which each rule is one
global regex substitution applied to the output of the previous rule, in the
given order, and with back-references substituted in replacements; in
particular the single rule rewriting (a)(n)(backslash-s)(a) to the template
group 1, space, group 2, space, group 4 maps tan-ab to ta-n-ab. -/
theorem c8_rules_pipeline :
    (∀ (r : Rule) (rest : List Rule) (s : Str),
      Rules.apply ⟨r :: rest⟩ s = Rules.apply ⟨rest⟩ (globalSub r.matcher r.repl s)) ∧
    (∀ s : Str, Rules.apply ⟨[]⟩ s = s) ∧
    Rules.apply
      ⟨[⟨fun s =>
          match s with
          | a :: n :: w :: a2 :: _ =>
              if a = 97 ∧ n = 110 ∧ isSpaceChar w ∧ a2 = 97 then
                some (4, [[a], [n], [w], [a2]])
              else none
          | _ => none,
        [.group 1, .lit [32], .group 2, .lit [32], .group 4]⟩]⟩
      [116, 97, 110, 32, 97, 98]
      = [116, 97, 32, 110, 32, 97, 98] :=
  ⟨fun _ _ _ => rfl, fun _ => rfl, rfl⟩

/-- C9: tokenizing U+02B0 ello in IPA mode yields U+02B0-e l l o: the
single-code-point Modifier Letter cluster, processed in the right-to-left
scan, is buffered and prefixed onto the adjacent base cluster e, giving one
combined segment. -/
theorem c9_ipa_combination :
    Tokenizer.call ⟨none, none, errors.replace⟩ extId [688, 101, 108, 108, 111]
        GRAPHEME none true [32] [32, 35, 32] errors.replace
      = .ok [688, 101, 32, 108, 32, 108, 32, 111] ∧
    combine_modifiers extId.isLm extId.isSk [[688], [101], [108], [108], [111]]
      = .ok [[688, 101], [108], [108], [111]] :=
  ⟨rfl, rfl⟩

/-! ### C5: column transforms -/

/-- Flatten a cell value into output tokens: a string becomes one token, a
list contributes its elements in order. -/
def pyFlatten : PyVal → List Str
  | .vnone => []
  | .vstr s => [s]
  | .vlist l => l

/-- Claim-side per-token step of the column transform: the attribute value
of the token in the requested column, flattened, with a fall back to the
replace handler when the attribute is absent (or null or empty). -/
def claimStep (op : TProfile) (repl : Str → Str) (column : Str)
    (token : Str) : List Str :=
  match lookupM op.mappings (token, column) with
  | some v => if pyTruthy v then pyFlatten v else [repl token]
  | none => [repl token]

/-- A value that is not the NULL sentinel string. -/
def noNullStr : PyVal → Bool
  | .vstr s => decide (s ≠ NULLSTR)
  | _ => true

theorem lookupM_mem (m : List ((Str × Str) × PyVal)) (key : Str × Str)
    (v : PyVal) (h : lookupM m key = some v) : (key, v) ∈ m := by
  induction m with
  | nil => cases h
  | cons p rest ih =>
      obtain ⟨k2, v2⟩ := p
      by_cases hk : k2 = key
      · subst hk
        have hv : v2 = v := by simpa [lookupM] using h
        subst hv
        exact List.mem_cons_self _ _
      · simp only [lookupM, if_neg hk] at h
        exact List.mem_cons_of_mem _ (ih h)

/-- The transform loop step equals the claim-side step, provided no mapped
value in the requested column and no replace handler output is the NULL
sentinel. -/
theorem transform_step_eq (op : TProfile) (repl : Str → Str) (column : Str)
    (hmap : ∀ p ∈ op.mappings, p.1.2 = column → noNullStr p.2)
    (hrepl : ∀ tok, repl tok ≠ NULLSTR) (out : List Str) (token : Str) :
    (let raw := (lookupM op.mappings (token, column)).getD .vnone
     let target := if pyTruthy raw then raw else .vstr (repl token)
     if pyEqStr target NULLSTR then out
     else
       match target with
       | .vlist l => out ++ l
       | .vstr s => out ++ [s]
       | .vnone => out)
      = out ++ claimStep op repl column token := by
  cases hlk : lookupM op.mappings (token, column) with
  | none =>
      simp only [hlk, Option.getD_none]
      rw [show pyTruthy PyVal.vnone = false from rfl]
      simp only [Bool.false_eq_true, if_false]
      rw [show pyEqStr (PyVal.vstr (repl token)) NULLSTR = decide (repl token = NULLSTR) from rfl]
      rw [decide_eq_false (hrepl token)]
      simp only [Bool.false_eq_true, if_false]
      rw [claimStep, hlk]
  | some v =>
      simp only [hlk, Option.getD_some]
      rw [claimStep, hlk]
      cases htr : pyTruthy v with
      | false =>
          simp only [Bool.false_eq_true, if_false]
          rw [show pyEqStr (PyVal.vstr (repl token)) NULLSTR
              = decide (repl token = NULLSTR) from rfl]
          rw [decide_eq_false (hrepl token)]
          simp only [Bool.false_eq_true, if_false]
          rw [htr]
          simp
      | true =>
          simp only [if_true]
          cases v with
          | vnone => cases htr
          | vstr s =>
              have hs : s ≠ NULLSTR := by
                have hh := hmap ((token, column), PyVal.vstr s) (lookupM_mem _ _ _ hlk) rfl
                simpa [noNullStr] using hh
              rw [show pyEqStr (PyVal.vstr s) NULLSTR = decide (s = NULLSTR) from rfl]
              rw [decide_eq_false hs]
              simp only [Bool.false_eq_true, if_false]
              rw [if_pos htr]
              rfl
          | vlist l =>
              rw [show pyEqStr (PyVal.vlist l) NULLSTR = false from rfl]
              simp only [Bool.false_eq_true, if_false]
              rw [if_pos htr]
              rfl

theorem transform_foldl_flatMap (op : TProfile) (repl : Str → Str) (column : Str)
    (hmap : ∀ p ∈ op.mappings, p.1.2 = column → noNullStr p.2)
    (hrepl : ∀ tok, repl tok ≠ NULLSTR) :
    ∀ (tokens : List Str) (out : List Str),
      tokens.foldl
        (fun out token =>
          let raw := (lookupM op.mappings (token, column)).getD .vnone
          let target := if pyTruthy raw then raw else .vstr (repl token)
          if pyEqStr target NULLSTR then out
          else
            match target with
            | .vlist l => out ++ l
            | .vstr s => out ++ [s]
            | .vnone => out) out
        = out ++ tokens.flatMap (claimStep op repl column) := by
  intro tokens
  induction tokens with
  | nil => intro out; simp
  | cons token rest ih =>
      intro out
      rw [List.foldl_cons, transform_step_eq op repl column hmap hrepl out token, ih]
      simp [List.flatMap_cons, List.append_assoc]

/-- C5: tokenizing against a non-default attribute column replaces each
matched grapheme by its attribute value in that column, flattening
list-valued attributes into multiple output tokens in order and falling back
to the replace error policy when the attribute is absent (provided neither
the mapped values nor the replace output are the NULL sentinel, which is
dropped); concretely, with aa mapped to the list x, y and b mapped to z,
tokenizing aab against that column yields the string x y z, and a grapheme c
with no attribute in the column is replaced by the marker. -/
theorem c5_column_transform :
    (∀ (t : Tokenizer) (op : TProfile) (word column : Str) (err : Str → Str),
      t.op = some op → column ∈ op.column_labels → column ≠ GRAPHEME →
      (∀ p ∈ op.mappings, p.1.2 = column → noNullStr p.2) →
      (∀ tok, t.errorsReplace tok ≠ NULLSTR) →
      t.transform word column err
        = .ok ((Tree.parse op.tree word err).flatMap
            (claimStep op t.errorsReplace column))) ∧
    (tprofileInit [[(GRAPHEME, PyVal.vstr [97, 97]),
        ([109, 97, 112, 112, 105, 110, 103], PyVal.vlist [[120], [121]])],
        [(GRAPHEME, PyVal.vstr [98]),
        ([109, 97, 112, 112, 105, 110, 103], PyVal.vstr [122])]]).bind
      (fun op => Tokenizer.call ⟨some op, none, errors.replace⟩ extId
         [97, 97, 98] [109, 97, 112, 112, 105, 110, 103] none false [32]
         [32, 35, 32] errors.replace)
      = .ok [120, 32, 121, 32, 122] ∧
    (tprofileInit [[(GRAPHEME, PyVal.vstr [97, 97]),
        ([109, 97, 112, 112, 105, 110, 103], PyVal.vlist [[120], [121]])],
        [(GRAPHEME, PyVal.vstr [98]),
        ([109, 97, 112, 112, 105, 110, 103], PyVal.vstr [122])],
        [(GRAPHEME, PyVal.vstr [99])]]).bind
      (fun op => Tokenizer.transform ⟨some op, none, errors.replace⟩
         [97, 97, 98, 99] [109, 97, 112, 112, 105, 110, 103] errors.replace)
      = .ok [[120], [121], [122], [239, 191, 189]] := by
  refine ⟨?_, rfl, rfl⟩
  intro t op word column err hop hcol hg hmap hrepl
  show Tokenizer.transform t word column err = _
  unfold Tokenizer.transform
  rw [hop]
  show (if column ∉ op.column_labels then Except.error PyErr.valueError else _) = _
  rw [if_neg (not_not_intro hcol)]
  show (if column = GRAPHEME then _ else _) = _
  rw [if_neg hg]
  rw [transform_foldl_flatMap op t.errorsReplace column hmap hrepl]
  rw [List.nil_append]

/-- C5 witness: the general transform description applied to the concrete
two-row profile of the claim. -/
theorem c5_column_transform_witness :
    ∀ op, tprofileInit [[(GRAPHEME, PyVal.vstr [97, 97]),
        ([109, 97, 112, 112, 105, 110, 103], PyVal.vlist [[120], [121]])],
        [(GRAPHEME, PyVal.vstr [98]),
        ([109, 97, 112, 112, 105, 110, 103], PyVal.vstr [122])]] = .ok op →
      Tokenizer.transform ⟨some op, none, errors.replace⟩ [97, 97, 98]
          [109, 97, 112, 112, 105, 110, 103] errors.replace
        = .ok ((Tree.parse op.tree [97, 97, 98] errors.replace).flatMap
            (claimStep op errors.replace [109, 97, 112, 112, 105, 110, 103])) := by
  intro op hinit
  have hop : op = ⟨[[97, 97], [98]],
      [(([97, 97], [109, 97, 112, 112, 105, 110, 103]), PyVal.vlist [[120], [121]]),
        (([98], [109, 97, 112, 112, 105, 110, 103]), PyVal.vstr [122])],
      [GRAPHEME, [109, 97, 112, 112, 105, 110, 103]],
      Tree.ofGraphemes [[97, 97], [98]]⟩ := by
    have h2 := hinit.symm.trans (show tprofileInit _ = .ok _ from rfl)
    cases h2
    rfl
  subst hop
  refine c5_column_transform.1 _ _ [97, 97, 98]
    [109, 97, 112, 112, 105, 110, 103] errors.replace rfl ?_ ?_ ?_ ?_
  · decide
  · decide
  · decide
  · intro tok
    show REPLACEMENT_MARKER ≠ NULLSTR
    decide

/-! ### C6: transform validation -/

theorem lookupT_isSome_mem (r : TRow) (k : Str) (v : PyVal)
    (h : lookupT r k = some v) : k ∈ r.map (fun kv => kv.1) := by
  induction r with
  | nil => cases h
  | cons p rest ih =>
      obtain ⟨k2, v2⟩ := p
      by_cases hk : k2 = k
      · subst hk
        exact List.mem_cons_self _ _
      · simp only [lookupT, if_neg hk] at h
        exact List.mem_cons_of_mem _ (ih h)

/-- Once the column labels are non-empty, the construction loop never
changes them. -/
theorem tprofileInitGo_labels :
    ∀ (specs : List TRow) (st : TPState), st.2.2 ≠ [] →
      ∀ st2, tprofileInitGo specs st = .ok st2 → st2.2.2 = st.2.2 := by
  intro specs
  induction specs with
  | nil =>
      intro st _ st2 h
      cases h
      rfl
  | cons spec rest ih =>
      intro st hne st2 hgo
      rw [show tprofileInitGo (spec :: rest) st
          = match tprofileStep st spec with
            | .error e => .error e
            | .ok s1 => tprofileInitGo rest s1 from rfl] at hgo
      cases hstep : tprofileStep st spec with
      | error e => rw [hstep] at hgo; cases hgo
      | ok s1 =>
          rw [hstep] at hgo
          have hlab : s1.2.2 = st.2.2 := by
            unfold tprofileStep at hstep
            rw [show (if st.2.2.isEmpty then spec.map (fun kv => kv.1) else st.2.2)
                = st.2.2 from by
                  rw [if_neg]
                  simp [List.isEmpty_iff, hne]] at hstep
            cases hlk : lookupT spec GRAPHEME with
            | none => rw [hlk] at hstep; cases hstep
            | some v =>
                rw [hlk] at hstep
                cases v with
                | vnone => cases hstep
                | vlist l => cases hstep
                | vstr g => cases hstep; rfl
          have hne1 : s1.2.2 ≠ [] := by rw [hlab]; exact hne
          rw [ih s1 hne1 st2 hgo, hlab]

/-- A successfully constructed non-empty legacy profile has the keys of its
first specification as column labels, and those contain the grapheme
column. -/
theorem tprofileInit_labels (spec1 : TRow) (rest : List TRow) (op : TProfile)
    (hinit : tprofileInit (spec1 :: rest) = .ok op) :
    op.column_labels = spec1.map (fun kv => kv.1) ∧
    GRAPHEME ∈ op.column_labels := by
  unfold tprofileInit at hinit
  cases hgo : tprofileInitGo (spec1 :: rest) ([], [], []) with
  | error e => rw [hgo] at hinit; cases hinit
  | ok st =>
      rw [hgo] at hinit
      have hop : op.column_labels = st.2.2 := by cases hinit; rfl
      rw [show tprofileInitGo (spec1 :: rest) ([], [], [])
          = match tprofileStep ([], [], []) spec1 with
            | .error e => .error e
            | .ok s1 => tprofileInitGo rest s1 from rfl] at hgo
      cases hstep : tprofileStep ([], [], []) spec1 with
      | error e => rw [hstep] at hgo; cases hgo
      | ok s1 =>
          rw [hstep] at hgo
          have hkey : ∃ g, lookupT spec1 GRAPHEME = some (.vstr g) ∧
              s1.2.2 = spec1.map (fun kv => kv.1) := by
            unfold tprofileStep at hstep
            cases hlk : lookupT spec1 GRAPHEME with
            | none => rw [hlk] at hstep; cases hstep
            | some v =>
                rw [hlk] at hstep
                cases v with
                | vnone => cases hstep
                | vlist l => cases hstep
                | vstr g =>
                    refine ⟨g, rfl, ?_⟩
                    cases hstep
                    rfl
          obtain ⟨g, hlk, hlab1⟩ := hkey
          have hGmem : GRAPHEME ∈ spec1.map (fun kv => kv.1) :=
            lookupT_isSome_mem spec1 GRAPHEME (.vstr g) hlk
          have hne1 : s1.2.2 ≠ [] := by
            rw [hlab1]
            exact List.ne_nil_of_mem hGmem
          have hfin : st.2.2 = s1.2.2 := tprofileInitGo_labels rest s1 hne1 st hgo
          rw [hop, hfin, hlab1]
          exact ⟨rfl, hGmem⟩

/-- C6 counterexample: with an attached profile built from zero
specifications, requesting the grapheme column itself raises a validation
error, contradicting that the grapheme column is always accepted. -/
theorem c6_counterexample :
    (tprofileInit []).bind
      (fun op => Tokenizer.transform ⟨some op, none, errors.replace⟩ [97]
        GRAPHEME errors.replace)
      = .error .valueError := rfl

/-- C6 amended: transform raises an assertion error exactly when no profile
is attached; with a profile it raises a validation error exactly when the
requested column is not among the profile column labels, which are the keys
of the first specification only.  Since every successfully constructed
non-empty profile has the grapheme column among these keys, the grapheme
column is accepted whenever the profile has at least one specification, but
it is rejected for an empty profile, and a column that appears only in a
later specification is rejected as well. -/
theorem c6_transform_validation :
    (∀ (t : Tokenizer) (word column : Str) (err : Str → Str),
      t.op = none → t.transform word column err = .error .assertionError) ∧
    (∀ (t : Tokenizer) (op : TProfile) (word column : Str) (err : Str → Str),
      t.op = some op →
        (column ∈ op.column_labels → (t.transform word column err).isOk = true) ∧
        (column ∉ op.column_labels →
          t.transform word column err = .error .valueError)) ∧
    (∀ (spec1 : TRow) (rest : List TRow) (op : TProfile),
      tprofileInit (spec1 :: rest) = .ok op →
        op.column_labels = spec1.map (fun kv => kv.1) ∧
        GRAPHEME ∈ op.column_labels) := by
  refine ⟨?_, ?_, fun spec1 rest op h => tprofileInit_labels spec1 rest op h⟩
  · intro t word column err hop
    unfold Tokenizer.transform
    rw [hop]
  · intro t op word column err hop
    constructor
    · intro hcol
      unfold Tokenizer.transform
      rw [hop]
      show (if column ∉ op.column_labels then Except.error PyErr.valueError
        else _).isOk = true
      rw [if_neg (not_not_intro hcol)]
      show (if column = GRAPHEME then Except.ok _ else Except.ok _).isOk = true
      by_cases hcg : column = GRAPHEME
      · rw [if_pos hcg]
        rfl
      · rw [if_neg hcg]
        rfl
    · intro hcol
      unfold Tokenizer.transform
      rw [hop]
      show (if column ∉ op.column_labels then Except.error PyErr.valueError
        else _) = _
      rw [if_pos hcol]

/-- C6 witness: the amended description applied to concrete inputs: no
profile gives the assertion error; a one-specification profile with columns
Grapheme and X accepts X and rejects Y; the constructed profile of that
specification has exactly those column labels, containing the grapheme
column. -/
theorem c6_transform_validation_witness :
    (Tokenizer.transform ⟨none, none, errors.replace⟩ [97] GRAPHEME
        errors.replace = .error .assertionError) ∧
    ((Tokenizer.transform
        ⟨some ⟨[[97]], [(([97], [88]), PyVal.vstr [120])], [GRAPHEME, [88]],
          Tree.ofGraphemes [[97]]⟩, none, errors.replace⟩
        [97] [88] errors.replace).isOk = true) ∧
    (Tokenizer.transform
        ⟨some ⟨[[97]], [(([97], [88]), PyVal.vstr [120])], [GRAPHEME, [88]],
          Tree.ofGraphemes [[97]]⟩, none, errors.replace⟩
        [97] [89] errors.replace = .error .valueError) ∧
    ((tprofileInit [[(GRAPHEME, PyVal.vstr [97]), ([88], PyVal.vstr [120])]]).map
        (fun op => decide (op.column_labels = [GRAPHEME, [88]] ∧
          GRAPHEME ∈ op.column_labels))
      = .ok true) := by
  refine ⟨c6_transform_validation.1 _ [97] GRAPHEME errors.replace rfl,
    (c6_transform_validation.2.1 _ _ [97] [88] errors.replace rfl).1 (by decide),
    (c6_transform_validation.2.1 _ _ [97] [89] errors.replace rfl).2 (by decide),
    ?_⟩
  cases hinit : tprofileInit [[(GRAPHEME, PyVal.vstr [97]), ([88], PyVal.vstr [120])]] with
  | error e =>
      have hok : (tprofileInit [[(GRAPHEME, PyVal.vstr [97]),
          ([88], PyVal.vstr [120])]]).isOk = true := by decide
      rw [hinit] at hok
      exact Bool.noConfusion hok
  | ok op =>
      have hlab := c6_transform_validation.2.2 _ [] op hinit
      have hfst : ([[(GRAPHEME, PyVal.vstr [97]),
          ([88], PyVal.vstr [120])]].headD []).map (fun kv => kv.1)
          = [GRAPHEME, [88]] := rfl
      rw [show Except.map (fun op => decide (op.column_labels = [GRAPHEME, [88]] ∧
          GRAPHEME ∈ op.column_labels)) (Except.ok op)
          = Except.ok (decide (op.column_labels = [GRAPHEME, [88]] ∧
            GRAPHEME ∈ op.column_labels)) from rfl]
      rw [decide_eq_true (show op.column_labels = [GRAPHEME, [88]] ∧
        GRAPHEME ∈ op.column_labels from ⟨hlab.1, hlab.2⟩)]

/-! ### C10: partiality of combine_modifiers -/

/-- One reverse-scan step on a single-code-point Modifier Letter cluster
that is not a stress mark, with clusters still remaining: the letter is
buffered into temp and nothing is emitted. -/
theorem cmLoop_lm_step (isLm isSk : Nat → Bool) (c : Nat) (rest : List Str)
    (result : List Str) (temp : Str) (hlm : isLm c = true) (h1 : c ≠ 712)
    (h2 : c ≠ 716) (hne : rest ≠ []) :
    cmLoop isLm isSk ([c] :: rest) result temp
      = cmLoop isLm isSk rest result ([c] ++ temp) := by
  simp only [cmLoop]
  rw [if_pos (show ([c] : Str).length = 1 ∧ isLm (([c] : Str).headD 0) = true ∧
      ¬(([c] : Str).headD 0 = 712 ∨ ([c] : Str).headD 0 = 716) from
        ⟨rfl, hlm, fun hc => hc.elim h1 h2⟩)]
  show (if rest.isEmpty = true then
      match setLastPre result ([c] ++ temp) with
      | .error e => .error e
      | .ok result2 => cmLoop isLm isSk rest result2 ([c] ++ temp)
    else cmLoop isLm isSk rest result ([c] ++ temp))
    = cmLoop isLm isSk rest result ([c] ++ temp)
  rw [if_neg (by simpa [List.isEmpty_iff] using hne)]

/-- A lone stress mark at the end of the reverse scan with an empty result
list raises IndexError. -/
theorem cmLoop_stress_empty (isLm isSk : Nat → Bool) (temp : Str) :
    cmLoop isLm isSk [[712]] [] temp = .error .indexError := by
  simp only [cmLoop]
  rw [if_neg (fun hc => hc.2.2 (Or.inl rfl))]
  rw [if_pos (show ([712] : Str).length = 1 ∧
      (([712] : Str).headD 0 = 712 ∨ ([712] : Str).headD 0 = 716) from
        ⟨rfl, Or.inl rfl⟩)]
  rfl

/-- A stress mark followed (in original order) by nothing but single
Modifier Letter clusters leaves the result list empty until the stress mark
is processed, which then indexes the empty list. -/
theorem cmLoop_stress_tail :
    ∀ (l : List Str) (temp : Str),
      (∀ m ∈ l, ∃ c, m = [c] ∧ extId.isLm c = true ∧ c ≠ 712 ∧ c ≠ 716) →
      cmLoop extId.isLm extId.isSk (l ++ [[712]]) [] temp = .error .indexError := by
  intro l
  induction l with
  | nil => intro temp _; exact cmLoop_stress_empty extId.isLm extId.isSk temp
  | cons m rest ih =>
      intro temp hm
      obtain ⟨c, hmc, hlm, h1, h2⟩ := hm m (List.mem_cons_self m rest)
      subst hmc
      rw [List.cons_append,
        cmLoop_lm_step extId.isLm extId.isSk c (rest ++ [[712]]) [] temp hlm h1 h2
          (by simp)]
      exact ih ([c] ++ temp) (fun q hq => hm q (List.mem_cons_of_mem _ hq))

/-- C10 counterexample: a sequence whose first cluster is the stress mark
U+02C8 but whose remainder starts with a base cluster does not raise; the
stress mark attaches to the base cluster.  Likewise a sequence whose last
cluster ends in a tie bar does not raise when that cluster is consumed as
the second element of a tie-bar pair. -/
theorem c10_counterexample :
    combine_modifiers extId.isLm extId.isSk [[712], [97]] = .ok [[712, 97]] ∧
    combine_modifiers extId.isLm extId.isSk [[712], [97]]
      ≠ .error PyErr.indexError ∧
    combine_modifiers extId.isLm extId.isSk [[97, 865], [98, 865]]
      = .ok [[97, 865, 98, 865]] ∧
    combine_modifiers extId.isLm extId.isSk [[97, 865], [98, 865]]
      ≠ .error PyErr.indexError :=
  ⟨rfl,
   fun hc => Except.noConfusion
     (show Except.ok ([[712, 97]] : List Str) = Except.error PyErr.indexError from hc),
   rfl,
   fun hc => Except.noConfusion
     (show Except.ok ([[97, 865, 98, 865]] : List Str)
        = Except.error PyErr.indexError from hc)⟩

/-- C10 amended: combine_modifiers is partial, raising an unhandled
IndexError on some inputs: a sequence consisting of a stress mark U+02C8
followed only by single Modifier Letter clusters (in particular a lone
stress mark), a lone modifier letter, and a sequence whose last segment ends
in a tie bar and is reached unpaired by the tie-bar scan, all index an empty
or exhausted list; but not every sequence whose first cluster is a stress
mark, nor every sequence whose last cluster ends in a tie bar, raises. -/
theorem c10_combine_partiality :
    combine_modifiers extId.isLm extId.isSk [[712]] = .error .indexError ∧
    combine_modifiers extId.isLm extId.isSk [[688]] = .error .indexError ∧
    (∀ ms : List Str,
      (∀ m ∈ ms, ∃ c, m = [c] ∧ extId.isLm c = true ∧ c ≠ 712 ∧ c ≠ 716) →
      combine_modifiers extId.isLm extId.isSk ([712] :: ms)
        = .error .indexError) ∧
    combine_modifiers extId.isLm extId.isSk [[97, 865]] = .error .indexError ∧
    combine_modifiers extId.isLm extId.isSk [[712], [97]] = .ok [[712, 97]] ∧
    combine_modifiers extId.isLm extId.isSk [[97, 865], [98, 865]]
      = .ok [[97, 865, 98, 865]] := by
  refine ⟨rfl, rfl, ?_, rfl, rfl, rfl⟩
  intro ms hms
  unfold combine_modifiers
  have hrev : ([712] :: ms).reverse = ms.reverse ++ [[712]] := by simp
  rw [hrev, cmLoop_stress_tail ms.reverse [] (fun q hq => hms q (by simpa using hq))]

/-- C10 amended witness: a stress mark followed by the modifier letter
U+02B0 raises IndexError, by the general statement applied at that input. -/
theorem c10_combine_partiality_witness :
    combine_modifiers extId.isLm extId.isSk [[712], [688]] = .error .indexError :=
  c10_combine_partiality.2.2.1 [[688]]
    (fun m hm => ⟨688, by simpa using hm, rfl, by decide, by decide⟩)

end Segments
